import Mathlib

/-!
Shallow embedding of the `deps` tool (deps.go): the data model, the recursive
graph builder `analyze`, the filtering policy, and the output projections.
Go maps are modelled as association lists (`List (String × α)`) with
insertion-order update semantics; the external resolver `build.Import` is a
function `String → Option GoPackage`; the recursion is fuel-indexed, with
`ARes.fuelOut` marking fuel exhaustion (the Go original has no fuel and simply
recurses; a run that needs unbounded fuel corresponds to non-termination).
The transient progress indicator (overwritten with blanks before the report)
carries no information and is not modelled.
-/

/-- A package descriptor as returned by the resolver (go/build's Package):
canonical import path, ordered direct imports, standard-library flag. -/
structure GoPackage where
  importPath : String
  imports : List String
  goroot : Bool
deriving DecidableEq

/-- The command-line configuration: root package argument and the three
boolean flags -stdlib, -lib, -short. -/
structure Config where
  rootPackage : String
  isIncludeStdlib : Bool
  isIncludeLibs : Bool
  isShort : Bool
deriving DecidableEq

/-- The fixed set of known third-party path prefixes (thirdPartyRoots). -/
def thirdPartyRoots : List String :=
  ["github.com", "bitbucket.org", "launchpad.net", "code.google.com"]

/-- Byte/char-wise prefix test on char lists (strings.HasPrefix). -/
def isPrefixL : List Char → List Char → Bool
  | [], _ => true
  | _ :: _, [] => false
  | a :: as, b :: bs => if a = b then isPrefixL as bs else false

/-- strings.HasPrefix on strings, via the char-list model. -/
def hasPrefixS (pre s : String) : Bool := isPrefixL pre.data s.data

/-- isStdlib from deps.go: a package is treated as standard library iff the
-stdlib flag is off and the descriptor's Goroot flag is set. -/
def isStdlib (cfg : Config) (p : GoPackage) : Bool :=
  if cfg.isIncludeStdlib then false else p.goroot

/-- isThirdParty from deps.go: with -lib off, a package is third-party iff
its import path does not start with the root package and starts with one of
the known third-party roots. -/
def isThirdParty (cfg : Config) (p : GoPackage) : Bool :=
  if cfg.isIncludeLibs then false
  else if hasPrefixS cfg.rootPackage p.importPath then false
  else thirdPartyRoots.any (fun root => hasPrefixS root p.importPath)

/-- Association-list lookup, modelling Go map read (first binding wins;
update keeps at most one binding per key). -/
def lookupA {α : Type} : List (String × α) → String → Option α
  | [], _ => none
  | (k, v) :: rest, key => if key = k then some v else lookupA rest key

/-- Association-list update, modelling Go map write: replace the existing
binding in place, or append a new one. -/
def updateA {α : Type} : List (String × α) → String → α → List (String × α)
  | [], key, v => [(key, v)]
  | (k, w) :: rest, key, v =>
    if key = k then (key, v) :: rest else (k, w) :: updateA rest key v

/-- Go map read with zero-value default (m[k] when k may be absent). -/
def getD (m : List (String × Nat)) (key : String) (dflt : Nat) : Nat :=
  (lookupA m key).getD dflt

/-- The global mutable state of deps.go: the four maps plus the two running
maxima (lowestLayer is the deepest layer seen, maxDeps the largest
dependency count seen). -/
structure ASt where
  deps : List (String × List GoPackage)
  numDeps : List (String × Nat)
  layerPos : List (String × Nat)
  depth : List (String × Nat)
  lowestLayer : Nat
  maxDeps : Nat
deriving DecidableEq

/-- Initial state: empty maps and zero counters, as in main(). -/
def initSt : ASt := ⟨[], [], [], [], 0, 0⟩

/-- Result of a fuel-indexed analyze call: out of fuel (models
non-termination), fatal resolver error (log.Fatal, carrying the failing
path), or normal completion with the updated state and the returned
depth. -/
inductive ARes where
  | fuelOut : ARes
  | fatal : String → ARes
  | ok : ASt → Nat → ARes
deriving DecidableEq

/-- The import-resolution loop at the top of analyze: skip the pseudo-import
"C", resolve each remaining import (aborting on the first failure, as
log.Fatal does), and retain the non-stdlib non-third-party descriptors in
order. -/
def resolveOwned (cfg : Config) (res : String → Option GoPackage) :
    List String → Except String (List GoPackage)
  | [] => Except.ok []
  | p :: rest =>
    if p = "C" then resolveOwned cfg res rest
    else
      match res p with
      | none => Except.error p
      | some innerPkg =>
        match resolveOwned cfg res rest with
        | Except.error e => Except.error e
        | Except.ok others =>
          if !isStdlib cfg innerPkg && !isThirdParty cfg innerPkg then
            Except.ok (innerPkg :: others)
          else Except.ok others

/-- The lowestLayer bump at the top of analyze (runs on every visit, also on
memoized revisits). -/
def bumpLayer (st : ASt) (layer : Nat) : ASt :=
  if st.lowestLayer < layer then { st with lowestLayer := layer } else st

/-- The map writes performed when a package is expanded: record its layer,
its owned dependency list, its dependency count, and bump maxDeps. -/
def recordPkg (st : ASt) (path : String) (layer : Nat) (ours : List GoPackage) : ASt :=
  { st with
    layerPos := updateA st.layerPos path layer,
    deps := updateA st.deps path ours,
    numDeps := updateA st.numDeps path ours.length,
    maxDeps := if st.maxDeps < ours.length then ours.length else st.maxDeps }

/-- The child-recursion loop of analyze: visit each owned dependency in
order, threading the state and accumulating the maximum returned depth,
short-circuiting on fuel exhaustion or a fatal error. -/
def foldChildren (f : GoPackage → ASt → ARes) : List GoPackage → ASt → Nat → ARes
  | [], st, acc => ARes.ok st acc
  | q :: qs, st, acc =>
    match f q st with
    | ARes.fuelOut => ARes.fuelOut
    | ARes.fatal e => ARes.fatal e
    | ARes.ok st2 d => foldChildren f qs st2 (if acc < d then d else acc)

/-- The final write of an expansion: record the package's computed depth. -/
def finishPkg (st3 : ASt) (path : String) (ourDepth : Nat) : ASt :=
  { st3 with depth := updateA st3.depth path ourDepth }

/-- The expansion path of analyze: resolve and filter the imports, record
the package, recurse into the owned dependencies at the next layer, then
record and return this package's depth (1 + max child depth, or 0 for a
leaf). -/
def expandStep (cfg : Config) (res : String → Option GoPackage)
    (f : GoPackage → ASt → ARes) (pkg : GoPackage) (layer : Nat) (st : ASt) : ARes :=
  match resolveOwned cfg res pkg.imports with
  | Except.error e => ARes.fatal e
  | Except.ok ours =>
    match foldChildren f ours (recordPkg st pkg.importPath layer ours) 0 with
    | ARes.fuelOut => ARes.fuelOut
    | ARes.fatal e => ARes.fatal e
    | ARes.ok st3 acc =>
      let ourDepth := if ours.isEmpty then acc else acc + 1
      ARes.ok (finishPkg st3 pkg.importPath ourDepth) ourDepth

/-- analyze from deps.go, fuel-indexed. A revisit at a layer less than or
equal to the recorded one returns the memoized depth (Go reads depth[path],
whose zero value is 0 when absent); otherwise the package is (re-)expanded. -/
def analyze (cfg : Config) (res : String → Option GoPackage) :
    Nat → GoPackage → Nat → ASt → ARes
  | 0, _, _, _ => ARes.fuelOut
  | fuel + 1, pkg, layer, st0 =>
    match lookupA (bumpLayer st0 layer).layerPos pkg.importPath with
    | some val =>
      if layer ≤ val then
        ARes.ok (bumpLayer st0 layer) (getD (bumpLayer st0 layer).depth pkg.importPath 0)
      else expandStep cfg res (fun q s => analyze cfg res fuel q (layer + 1) s)
        pkg layer (bumpLayer st0 layer)
    | none => expandStep cfg res (fun q s => analyze cfg res fuel q (layer + 1) s)
        pkg layer (bumpLayer st0 layer)

/-- Char-list comparison used by sort.Strings: lexicographic on code points. -/
def charListLe : List Char → List Char → Bool
  | [], _ => true
  | _ :: _, [] => false
  | a :: as, b :: bs =>
    if a.toNat < b.toNat then true
    else if a.toNat = b.toNat then charListLe as bs else false

/-- Lexicographic string comparison (sort.Strings order). -/
def strLe (a b : String) : Bool := charListLe a.data b.data

/-- Insert into a sorted list of strings (helper for sort.Strings). -/
def insertStr (s : String) : List String → List String
  | [] => [s]
  | t :: ts => if strLe s t then s :: t :: ts else t :: insertStr s ts

/-- sort.Strings modelled as insertion sort (a sorted permutation). -/
def sortStrings (l : List String) : List String := l.foldr insertStr []

/-- Remove leading '/' characters (half of strings.Trim(s, "/")). -/
def trimLeftSlash : List Char → List Char
  | [] => []
  | c :: cs => if c = '/' then trimLeftSlash cs else c :: cs

/-- strings.Trim(s, "/"): drop leading and trailing '/' characters. -/
def trimSlash (s : List Char) : List Char :=
  (trimLeftSlash (trimLeftSlash s).reverse).reverse

/-- Replace the first occurrence of pat in s by the empty string
(strings.Replace(s, pat, "", 1) with empty replacement). -/
def replaceFirstL (pat : List Char) : List Char → List Char
  | [] => if isPrefixL pat [] then List.drop pat.length [] else []
  | c :: cs =>
    if isPrefixL pat (c :: cs) then List.drop pat.length (c :: cs)
    else c :: replaceFirstL pat cs

/-- Whether pat occurs as a contiguous sublist of s. -/
def occursL (pat : List Char) : List Char → Bool
  | [] => isPrefixL pat []
  | c :: cs => if isPrefixL pat (c :: cs) then true else occursL pat cs

/-- short from deps.go: with -short off, or a name not strictly longer than
the root package, return the name unchanged; otherwise remove one occurrence
of the root package (a single substring replacement) and trim surrounding
'/' characters. -/
def short (cfg : Config) (name : String) : String :=
  if cfg.isShort = false then name
  else if name.length ≤ cfg.rootPackage.length then name
  else String.mk (trimSlash (replaceFirstL cfg.rootPackage.data name.data))

/-- bold from deps.go: wrap in ANSI bold escapes. -/
def bold (msg : String) : String := "\x1b[1m" ++ msg ++ "\x1b[0m"

/-- strings.Join(l, sep). -/
def joinSep (sep : String) : List String → String
  | [] => ""
  | x :: xs => xs.foldl (fun acc y => acc ++ sep ++ y) x

/-- annotated from deps.go: render each package as "name count" when its
dependency count is positive and as the bare name otherwise, then sort the
rendered strings. -/
def annotated (cfg : Config) (numDeps : List (String × Nat)) (pkgs : List String) : List String :=
  sortStrings (pkgs.map (fun pkgName =>
    let num := getD numDeps pkgName 0
    if 0 < num then short cfg pkgName ++ " " ++ toString num else short cfg pkgName))

/-- Append a name to the bucket at index v, or fail when v is out of range
(the Go slice indexing idxCount[count] would panic there). -/
def addToBucket : List (List String) → Nat → String → Option (List (List String))
  | [], _, _ => none
  | b :: bs, 0, s => some ((b ++ [s]) :: bs)
  | b :: bs, n + 1, s => (addToBucket bs n s).map (fun bs2 => b :: bs2)

/-- Distribute map entries into their buckets, failing on any out-of-range
index. -/
def fillBuckets : List (String × Nat) → List (List String) → Option (List (List String))
  | [], bs => some bs
  | (name, v) :: rest, bs =>
    match addToBucket bs v name with
    | none => none
    | some bs2 => fillBuckets rest bs2

/-- The bucket-array construction shared by the three grouping displays:
a slice of size buckets indexed by the map value. -/
def bucketize (size : Nat) (entries : List (String × Nat)) : Option (List (List String)) :=
  fillBuckets entries (List.replicate size [])

/-- layerDisplay from deps.go: bucket layerPos into lowestLayer+1 layers and
print every layer (also empty ones) in ascending order, each as
"layer: annotated-members". none models the out-of-range panic. -/
def layerDisplay (cfg : Config) (st : ASt) : Option (List String) :=
  (bucketize (st.lowestLayer + 1) st.layerPos).map (fun layers =>
    layers.enum.map (fun pr =>
      toString pr.1 ++ ": " ++ joinSep (", ") (annotated cfg st.numDeps pr.2)))

/-- The printed groups of countDisplay: buckets of numDeps in strictly
descending key order, empty buckets skipped, members unrendered. -/
def countBuckets (st : ASt) : Option (List (Nat × List String)) :=
  (bucketize (st.maxDeps + 1) st.numDeps).map (fun idxCount =>
    (List.range (st.maxDeps + 1)).reverse.filterMap (fun i =>
      match idxCount.getD i [] with
      | [] => none
      | pkgs => some (i, pkgs)))

/-- countDisplay from deps.go: one line "count members" per non-empty bucket,
in descending count order. -/
def countDisplay (st : ASt) : Option (List String) :=
  (countBuckets st).map (List.map (fun pr => toString pr.1 ++ " " ++ joinSep (", ") pr.2))

/-- The printed groups of depthDisplay: buckets of depth (sized by the root
package's depth), descending, empty skipped, members sorted by raw import
path (sort.Strings(pkgs) before annotation). -/
def depthBuckets (st : ASt) (pkgName : String) : Option (List (Nat × List String)) :=
  (bucketize (getD st.depth pkgName 0 + 1) st.depth).map (fun idxDepth =>
    (List.range (getD st.depth pkgName 0 + 1)).reverse.filterMap (fun i =>
      match idxDepth.getD i [] with
      | [] => none
      | pkgs => some (i, sortStrings pkgs)))

/-- depthDisplay from deps.go: one line "depth annotated-members" per
non-empty bucket, in descending depth order. -/
def depthDisplay (cfg : Config) (st : ASt) (pkgName : String) : Option (List String) :=
  (depthBuckets st pkgName).map
    (List.map (fun pr => toString pr.1 ++ " " ++ joinSep (", ") (annotated cfg st.numDeps pr.2)))

/-- depsDisplay from deps.go: the root's direct owned dependencies, one per
indented line, or an explicit notice when there are none. -/
def depsDisplayLines (cfg : Config) (st : ASt) (pkgName : String) : List String :=
  let l := (lookupA st.deps pkgName).getD []
  if l.isEmpty then ["No internal dependencies"]
  else l.map (fun pkg => "  " ++ short cfg pkg.importPath)

/-- deepDepsDisplay from deps.go: pre-order indented tree, fuel-indexed
(the Go original recurses on the deps map without a guard). -/
def deepDeps (cfg : Config) (st : ASt) : Nat → String → Nat → Option (List String)
  | 0, _, _ => none
  | fuel + 1, pkgName, d =>
    let line := String.join (List.replicate d ("| ")) ++ short cfg pkgName
    ((lookupA st.deps pkgName).getD []).foldl
      (fun acc pkg =>
        match acc with
        | none => none
        | some ls =>
          match deepDeps cfg st fuel pkg.importPath (d + 1) with
          | none => none
          | some ls2 => some (ls ++ ls2))
      (some [line])

/-- main from deps.go, as the list of stdout lines (progress writes and the
blank-overwrite are transient and omitted): the bold title line, then — only
if the root resolves and the traversal completes — the mode-specific body.
none models a panic or fuel exhaustion; a resolver failure (log.Fatal)
leaves just the title on stdout. -/
def mainOutput (cfg : Config) (res : String → Option GoPackage)
    (mode : String) (fuel : Nat) : Option (List String) :=
  let title := "Dependencies of " ++ bold cfg.rootPackage
  match res cfg.rootPackage with
  | none => some [title]
  | some pkg =>
    match analyze cfg res fuel pkg 0 initSt with
    | ARes.fuelOut => none
    | ARes.fatal _ => some [title]
    | ARes.ok st _ =>
      if mode = "layers" then
        (layerDisplay cfg st).map (fun body =>
          title :: "Top-down dependency layers"
            :: "Number after package name is number of imports" :: body)
      else if mode = "depth" then
        (depthDisplay cfg st cfg.rootPackage).map (fun body =>
          title :: "Bottom-up dependency layers"
            :: "Number after package name is number of imports" :: body)
      else if mode = "deep" then
        (deepDeps cfg st fuel cfg.rootPackage 0).map (fun body =>
          title :: "Dependency tree" :: body)
      else if mode = "count" then
        (countDisplay st).map (fun body =>
          title :: "Packages by descending number of internal imports" :: body)
      else some (title :: depsDisplayLines cfg st cfg.rootPackage)

/-- A well-formed resolver returns descriptors whose canonical import path is
the path it was asked for (as go/build does for the paths used here). -/
def RWres (res : String → Option GoPackage) : Prop :=
  ∀ p gp, res p = some gp → gp.importPath = p

/-- One owned edge of the import graph: q is among the retained (owned)
resolved imports of p. -/
def OwnedEdge (cfg : Config) (res : String → Option GoPackage) (p q : String) : Prop :=
  ∃ gp l, res p = some gp ∧ resolveOwned cfg res gp.imports = Except.ok l ∧
    q ∈ l.map (fun x => x.importPath)

/-- Root-to-package paths in the owned subgraph, measured by edge count. -/
inductive Reach (cfg : Config) (res : String → Option GoPackage) (root : String) :
    Nat → String → Prop where
  | refl : Reach cfg res root 0 root
  | step : ∀ n p q, Reach cfg res root n p → OwnedEdge cfg res p q →
      Reach cfg res root (n + 1) q

/-- A rank function strictly decreasing along owned edges: the acyclicity
witness for the owned subgraph. -/
def RankDec (cfg : Config) (res : String → Option GoPackage) (r : String → Nat) : Prop :=
  ∀ p gp l q, res p = some gp → resolveOwned cfg res gp.imports = Except.ok l →
    q ∈ l → r q.importPath < r p

/-- A package whose expansion is underway: its layer is recorded but its
depth is not yet. -/
def Broken (st : ASt) (p : String) : Prop :=
  lookupA st.layerPos p ≠ none ∧ lookupA st.depth p = none

/-- Maximum of a list of naturals (the child-depth fold), 0 for the empty
list. -/
def maxOf (l : List Nat) : Nat := l.foldr Nat.max 0

/-- The depth a package's recorded owned-dependency list induces: 0 for a
leaf, otherwise 1 + the maximum recorded depth of its dependencies. -/
def listDepth (st : ASt) (l : List GoPackage) : Nat :=
  if l.isEmpty then 0 else 1 + maxOf (l.map (fun q => getD st.depth q.importPath 0))

/-- Depth coherence: every recorded depth is the one induced by the
package's recorded owned-dependency list (which is the resolver-filtered
one), all of whose members have recorded depths. -/
def GoodDepth (cfg : Config) (res : String → Option GoPackage) (st : ASt) : Prop :=
  ∀ p v, lookupA st.depth p = some v →
    ∃ gp l, res p = some gp ∧ resolveOwned cfg res gp.imports = Except.ok l ∧
      lookupA st.deps p = some l ∧ (∀ q ∈ l, lookupA st.depth q.importPath ≠ none) ∧
      v = listDepth st l

/-- Every recorded deps entry is the canonical resolver-filtered list. -/
def DepsCanon (cfg : Config) (res : String → Option GoPackage) (st : ASt) : Prop :=
  ∀ p l, lookupA st.deps p = some l →
    ∃ gp, res p = some gp ∧ resolveOwned cfg res gp.imports = Except.ok l

/-- A deps entry exists only for a package whose layer is recorded. -/
def PhaseInv (st : ASt) : Prop :=
  ∀ p, lookupA st.deps p ≠ none → lookupA st.layerPos p ≠ none

/-- Layer coherence for one package: if its layer is recorded, its owned
list is recorded and every owned dependency has a recorded layer at least
one deeper. -/
def LGood (cfg : Config) (res : String → Option GoPackage) (st : ASt) (p : String) : Prop :=
  ∀ Lp, lookupA st.layerPos p = some Lp →
    ∃ gp l, res p = some gp ∧ resolveOwned cfg res gp.imports = Except.ok l ∧
      lookupA st.deps p = some l ∧
      ∀ q ∈ l, ∃ Lq, lookupA st.layerPos q.importPath = some Lq ∧ Lp + 1 ≤ Lq

/-- Every recorded layer is realized by an actual root-to-package path of
that edge count. -/
def Realized (cfg : Config) (res : String → Option GoPackage) (root : String) (st : ASt) : Prop :=
  ∀ p L, lookupA st.layerPos p = some L → Reach cfg res root L p

/-- Basic state invariant: distinct map keys, every recorded layer bounded
by lowestLayer, every dependency count bounded by maxDeps and agreeing with
the recorded list's length. -/
def BasicInv (st : ASt) : Prop :=
  (st.deps.map Prod.fst).Nodup ∧ (st.numDeps.map Prod.fst).Nodup ∧
  (st.layerPos.map Prod.fst).Nodup ∧ (st.depth.map Prod.fst).Nodup ∧
  (∀ p v, lookupA st.layerPos p = some v → v ≤ st.lowestLayer) ∧
  (∀ p n, lookupA st.numDeps p = some n → n ≤ st.maxDeps) ∧
  (∀ p, lookupA st.numDeps p = (lookupA st.deps p).map List.length)

/-- Resolver built from a finite universe of packages. -/
def mkRes (ul : List (String × GoPackage)) : String → Option GoPackage :=
  fun p => lookupA ul p

/-- The owned list a universe entry resolves to (empty on resolver failure);
used to state the decidable acyclicity check for concrete universes. -/
def ownedListOf (cfg : Config) (res : String → Option GoPackage) (gp : GoPackage) :
    List GoPackage :=
  match resolveOwned cfg res gp.imports with
  | Except.error _ => []
  | Except.ok l => l

/-- Projection: the recorded layer of a package in a completed run. -/
def layerOf (rr : ARes) (p : String) : Option Nat :=
  match rr with
  | ARes.ok st _ => lookupA st.layerPos p
  | _ => none

/-- Projection: the recorded depth of a package in a completed run. -/
def depthOf (rr : ARes) (p : String) : Option Nat :=
  match rr with
  | ARes.ok st _ => lookupA st.depth p
  | _ => none

/-- Chain universe r → a → b from the spec's end-to-end scenario 2. -/
def chainUL : List (String × GoPackage) :=
  [("r", ⟨"r", ["a"], false⟩), ("a", ⟨"a", ["b"], false⟩), ("b", ⟨"b", [], false⟩)]

/-- Configuration for the chain universe: root r, all flags off. -/
def chainCfg : Config := ⟨"r", false, false, false⟩

/-- Root descriptor of the chain universe. -/
def chainRoot : GoPackage := ⟨"r", ["a"], false⟩

/-- Rank function witnessing acyclicity of the chain universe. -/
def chainRank (p : String) : Nat := if p = "r" then 2 else if p = "a" then 1 else 0

/-- The completed chain traversal. -/
def chainRun : ARes := analyze chainCfg (mkRes chainUL) 10 chainRoot 0 initSt

/-- Shortcut universe r → a → c, r → c: the two root-to-c paths have edge
counts 2 and 1. -/
def shortcutUL : List (String × GoPackage) :=
  [("r", ⟨"r", ["a", "c"], false⟩), ("a", ⟨"a", ["c"], false⟩), ("c", ⟨"c", [], false⟩)]

/-- Configuration for the shortcut universe. -/
def shortcutCfg : Config := ⟨"r", false, false, false⟩

/-- Root descriptor of the shortcut universe. -/
def shortcutRoot : GoPackage := ⟨"r", ["a", "c"], false⟩

/-- The completed shortcut traversal. -/
def shortcutRun : ARes := analyze shortcutCfg (mkRes shortcutUL) 10 shortcutRoot 0 initSt

/-- Self-loop universe: package x imports itself. -/
def loopUL : List (String × GoPackage) := [("x", ⟨"x", ["x"], false⟩)]

/-- Configuration for the self-loop universe. -/
def loopCfg : Config := ⟨"x", false, false, false⟩

/-- Root descriptor of the self-loop universe. -/
def loopRoot : GoPackage := ⟨"x", ["x"], false⟩

/-- Universe whose root has one unresolvable import m. -/
def brokenUL : List (String × GoPackage) := [("r", ⟨"r", ["m"], false⟩)]

/-- Configuration for the unresolvable-import universe. -/
def brokenCfg : Config := ⟨"r", false, false, false⟩

/-- Root descriptor of the unresolvable-import universe. -/
def brokenRoot : GoPackage := ⟨"r", ["m"], false⟩

/-- The state of a completed run (initSt for non-ok results). -/
def finalStOf (rr : ARes) : ASt :=
  match rr with
  | ARes.ok st _ => st
  | _ => initSt

/-- The final state of the chain traversal. -/
def chainFinalSt : ASt := finalStOf chainRun

/-! ### Association-list lemmas -/

theorem lookupA_updateA_self {α : Type} (m : List (String × α)) (k : String) (v : α) :
    lookupA (updateA m k v) k = some v := by
  induction m with
  | nil => simp [updateA, lookupA]
  | cons kv rest ih =>
    obtain ⟨k0, w⟩ := kv
    by_cases h : k = k0
    · subst h; simp [updateA, lookupA]
    · simp [updateA, lookupA, h, ih]

theorem lookupA_updateA_ne {α : Type} (m : List (String × α)) (k k2 : String) (v : α)
    (h : k2 ≠ k) : lookupA (updateA m k v) k2 = lookupA m k2 := by
  induction m with
  | nil => simp [updateA, lookupA, h]
  | cons kv rest ih =>
    obtain ⟨k0, w⟩ := kv
    by_cases h0 : k = k0
    · subst h0; simp [updateA, lookupA, h]
    · by_cases h2 : k2 = k0 <;> simp [updateA, lookupA, h0, h2, ih]

theorem mem_of_lookupA {α : Type} (m : List (String × α)) (k : String) (v : α)
    (h : lookupA m k = some v) : (k, v) ∈ m := by
  induction m with
  | nil => simp [lookupA] at h
  | cons kv rest ih =>
    obtain ⟨k0, w⟩ := kv
    by_cases h0 : k = k0
    · subst h0
      simp [lookupA] at h
      simp [h]
    · simp [lookupA, h0] at h
      exact List.mem_cons_of_mem _ (ih h)

theorem lookupA_of_mem_nodup {α : Type} (m : List (String × α)) (k : String) (v : α)
    (hnd : (m.map Prod.fst).Nodup) (h : (k, v) ∈ m) : lookupA m k = some v := by
  induction m with
  | nil => simp at h
  | cons kv rest ih =>
    obtain ⟨k0, w⟩ := kv
    rw [List.map_cons, List.nodup_cons] at hnd
    rcases List.mem_cons.mp h with h1 | h1
    · cases h1; simp [lookupA]
    · have hk : k ≠ k0 := by
        intro he; subst he
        exact hnd.1 (by simp; exact ⟨v, h1⟩)
      simp [lookupA, hk]
      exact ih hnd.2 h1

/-- Membership in an updated association list comes from the old list or is
the new binding. -/
theorem mem_updateA_cases {α : Type} (m : List (String × α)) (k : String) (v : α)
    (x : String) (y : α) (h : (x, y) ∈ updateA m k v) :
    (x, y) ∈ m ∨ (x = k ∧ y = v) := by
  induction m with
  | nil =>
    simp [updateA] at h
    exact Or.inr ⟨h.1, h.2⟩
  | cons kv rest ih =>
    obtain ⟨k0, w⟩ := kv
    by_cases h0 : k = k0
    · subst h0
      simp [updateA] at h
      rcases h with h | h
      · exact Or.inr ⟨h.1, h.2⟩
      · exact Or.inl (List.mem_cons_of_mem _ h)
    · simp [updateA, h0] at h
      rcases h with h | h
      · exact Or.inl (by simp [h])
      · rcases ih h with h1 | h1
        · exact Or.inl (List.mem_cons_of_mem _ h1)
        · exact Or.inr h1

theorem keys_updateA_sub {α : Type} (m : List (String × α)) (k : String) (v : α) :
    ∀ x ∈ (updateA m k v).map Prod.fst, x ∈ m.map Prod.fst ∨ x = k := by
  intro x hx
  simp at hx
  obtain ⟨y, hy⟩ := hx
  rcases mem_updateA_cases m k v x y hy with h | h
  · exact Or.inl (by simp; exact ⟨y, h⟩)
  · exact Or.inr h.1

theorem nodup_keys_updateA {α : Type} (m : List (String × α)) (k : String) (v : α)
    (hnd : (m.map Prod.fst).Nodup) : ((updateA m k v).map Prod.fst).Nodup := by
  induction m with
  | nil => simp [updateA]
  | cons kv rest ih =>
    obtain ⟨k0, w⟩ := kv
    rw [List.map_cons, List.nodup_cons] at hnd
    by_cases h0 : k = k0
    · subst h0
      simp only [updateA, if_pos trivial, reduceIte]
      rw [List.map_cons, List.nodup_cons]
      exact hnd
    · simp only [updateA, if_neg h0]
      rw [List.map_cons, List.nodup_cons]
      refine ⟨?_, ih hnd.2⟩
      intro hc
      rcases keys_updateA_sub rest k v k0 hc with h | h
      · exact hnd.1 h
      · exact h0 h.symm

/-! ### Stepping lemmas for the traversal -/

theorem bumpLayer_layerPos (st : ASt) (layer : Nat) :
    (bumpLayer st layer).layerPos = st.layerPos := by
  unfold bumpLayer; split <;> rfl

theorem bumpLayer_deps (st : ASt) (layer : Nat) :
    (bumpLayer st layer).deps = st.deps := by
  unfold bumpLayer; split <;> rfl

theorem bumpLayer_numDeps (st : ASt) (layer : Nat) :
    (bumpLayer st layer).numDeps = st.numDeps := by
  unfold bumpLayer; split <;> rfl

theorem bumpLayer_depth (st : ASt) (layer : Nat) :
    (bumpLayer st layer).depth = st.depth := by
  unfold bumpLayer; split <;> rfl

theorem bumpLayer_maxDeps (st : ASt) (layer : Nat) :
    (bumpLayer st layer).maxDeps = st.maxDeps := by
  unfold bumpLayer; split <;> rfl

theorem le_bumpLayer_lowestLayer (st : ASt) (layer : Nat) :
    layer ≤ (bumpLayer st layer).lowestLayer := by
  unfold bumpLayer
  split
  · exact Nat.le_refl layer
  · omega

theorem lowestLayer_le_bumpLayer (st : ASt) (layer : Nat) :
    st.lowestLayer ≤ (bumpLayer st layer).lowestLayer := by
  unfold bumpLayer
  split
  · rename_i h
    exact Nat.le_of_lt h
  · exact Nat.le_refl _

theorem analyze_zero (cfg : Config) (res : String → Option GoPackage)
    (pkg : GoPackage) (layer : Nat) (st : ASt) :
    analyze cfg res 0 pkg layer st = ARes.fuelOut := rfl

theorem analyze_succ (cfg : Config) (res : String → Option GoPackage)
    (fuel : Nat) (pkg : GoPackage) (layer : Nat) (st0 : ASt) :
    analyze cfg res (fuel + 1) pkg layer st0 =
      (match lookupA (bumpLayer st0 layer).layerPos pkg.importPath with
      | some val =>
        if layer ≤ val then
          ARes.ok (bumpLayer st0 layer) (getD (bumpLayer st0 layer).depth pkg.importPath 0)
        else expandStep cfg res (fun q s => analyze cfg res fuel q (layer + 1) s)
          pkg layer (bumpLayer st0 layer)
      | none => expandStep cfg res (fun q s => analyze cfg res fuel q (layer + 1) s)
          pkg layer (bumpLayer st0 layer)) := rfl

theorem analyze_memo (cfg : Config) (res : String → Option GoPackage)
    (fuel : Nat) (pkg : GoPackage) (layer : Nat) (st0 : ASt) (val : Nat)
    (h : lookupA (bumpLayer st0 layer).layerPos pkg.importPath = some val)
    (hle : layer ≤ val) :
    analyze cfg res (fuel + 1) pkg layer st0 =
      ARes.ok (bumpLayer st0 layer) (getD (bumpLayer st0 layer).depth pkg.importPath 0) := by
  rw [analyze_succ, h]
  simp [hle]

theorem analyze_expand_deeper (cfg : Config) (res : String → Option GoPackage)
    (fuel : Nat) (pkg : GoPackage) (layer : Nat) (st0 : ASt) (val : Nat)
    (h : lookupA (bumpLayer st0 layer).layerPos pkg.importPath = some val)
    (hlt : val < layer) :
    analyze cfg res (fuel + 1) pkg layer st0 =
      expandStep cfg res (fun q s => analyze cfg res fuel q (layer + 1) s)
        pkg layer (bumpLayer st0 layer) := by
  rw [analyze_succ, h]
  simp [Nat.not_le.mpr hlt]

theorem analyze_expand_new (cfg : Config) (res : String → Option GoPackage)
    (fuel : Nat) (pkg : GoPackage) (layer : Nat) (st0 : ASt)
    (h : lookupA (bumpLayer st0 layer).layerPos pkg.importPath = none) :
    analyze cfg res (fuel + 1) pkg layer st0 =
      expandStep cfg res (fun q s => analyze cfg res fuel q (layer + 1) s)
        pkg layer (bumpLayer st0 layer) := by
  rw [analyze_succ, h]

theorem expandStep_error (cfg : Config) (res : String → Option GoPackage)
    (f : GoPackage → ASt → ARes) (pkg : GoPackage) (layer : Nat) (st : ASt) (e : String)
    (h : resolveOwned cfg res pkg.imports = Except.error e) :
    expandStep cfg res f pkg layer st = ARes.fatal e := by
  unfold expandStep
  rw [h]

theorem expandStep_ok (cfg : Config) (res : String → Option GoPackage)
    (f : GoPackage → ASt → ARes) (pkg : GoPackage) (layer : Nat) (st st3 : ASt)
    (ours : List GoPackage) (acc : Nat)
    (h : resolveOwned cfg res pkg.imports = Except.ok ours)
    (hf : foldChildren f ours (recordPkg st pkg.importPath layer ours) 0 = ARes.ok st3 acc) :
    expandStep cfg res f pkg layer st =
      ARes.ok (finishPkg st3 pkg.importPath (if ours.isEmpty then acc else acc + 1))
        (if ours.isEmpty then acc else acc + 1) := by
  simp only [expandStep, h, hf]

theorem expandStep_fuelOut (cfg : Config) (res : String → Option GoPackage)
    (f : GoPackage → ASt → ARes) (pkg : GoPackage) (layer : Nat) (st : ASt)
    (ours : List GoPackage)
    (h : resolveOwned cfg res pkg.imports = Except.ok ours)
    (hf : foldChildren f ours (recordPkg st pkg.importPath layer ours) 0 = ARes.fuelOut) :
    expandStep cfg res f pkg layer st = ARes.fuelOut := by
  simp only [expandStep, h, hf]

theorem expandStep_fatal (cfg : Config) (res : String → Option GoPackage)
    (f : GoPackage → ASt → ARes) (pkg : GoPackage) (layer : Nat) (st : ASt)
    (ours : List GoPackage) (e : String)
    (h : resolveOwned cfg res pkg.imports = Except.ok ours)
    (hf : foldChildren f ours (recordPkg st pkg.importPath layer ours) 0 = ARes.fatal e) :
    expandStep cfg res f pkg layer st = ARes.fatal e := by
  simp only [expandStep, h, hf]

/-- The three possible shapes of an expandStep result, for case analysis. -/
theorem expandStep_cases (cfg : Config) (res : String → Option GoPackage)
    (f : GoPackage → ASt → ARes) (pkg : GoPackage) (layer : Nat) (st : ASt) :
    (∃ e, resolveOwned cfg res pkg.imports = Except.error e ∧
      expandStep cfg res f pkg layer st = ARes.fatal e) ∨
    (∃ ours, resolveOwned cfg res pkg.imports = Except.ok ours ∧
      ((foldChildren f ours (recordPkg st pkg.importPath layer ours) 0 = ARes.fuelOut ∧
          expandStep cfg res f pkg layer st = ARes.fuelOut) ∨
        (∃ e, foldChildren f ours (recordPkg st pkg.importPath layer ours) 0 = ARes.fatal e ∧
          expandStep cfg res f pkg layer st = ARes.fatal e) ∨
        (∃ st3 acc, foldChildren f ours (recordPkg st pkg.importPath layer ours) 0 =
            ARes.ok st3 acc ∧
          expandStep cfg res f pkg layer st =
            ARes.ok (finishPkg st3 pkg.importPath (if ours.isEmpty then acc else acc + 1))
              (if ours.isEmpty then acc else acc + 1)))) := by
  cases hro : resolveOwned cfg res pkg.imports with
  | error e => exact Or.inl ⟨e, rfl, expandStep_error cfg res f pkg layer st e hro⟩
  | ok ours =>
    refine Or.inr ⟨ours, rfl, ?_⟩
    cases hf : foldChildren f ours (recordPkg st pkg.importPath layer ours) 0 with
    | fuelOut => exact Or.inl ⟨rfl, expandStep_fuelOut cfg res f pkg layer st ours hro hf⟩
    | fatal e => exact Or.inr (Or.inl ⟨e, rfl, expandStep_fatal cfg res f pkg layer st ours e hro hf⟩)
    | ok st3 acc =>
      exact Or.inr (Or.inr ⟨st3, acc, rfl, expandStep_ok cfg res f pkg layer st st3 ours acc hro hf⟩)

/-! ### Prefix and replacement lemmas (for the short contract) -/

theorem isPrefixL_iff (pat s : List Char) :
    isPrefixL pat s = true ↔ ∃ rest, s = pat ++ rest := by
  induction pat generalizing s with
  | nil => simp [isPrefixL]
  | cons a as ih =>
    cases s with
    | nil =>
      simp [isPrefixL]
    | cons b bs =>
      by_cases hab : a = b
      · subst hab
        constructor
        · intro h
          have h2 : isPrefixL as bs = true := by simpa [isPrefixL] using h
          obtain ⟨rest, hrest⟩ := (ih bs).mp h2
          exact ⟨rest, by simp [hrest]⟩
        · rintro ⟨rest, hrest⟩
          have hbs : bs = as ++ rest := by injection hrest
          simp [isPrefixL, (ih bs).mpr ⟨rest, hbs⟩]
      · constructor
        · intro h
          simp [isPrefixL, hab] at h
        · rintro ⟨rest, hrest⟩
          have h1 : b = a := by injection hrest with hx hy
          exact (hab h1.symm).elim

theorem isPrefixL_drop (pat s : List Char) (h : isPrefixL pat s = true) :
    s = pat ++ List.drop pat.length s := by
  obtain ⟨rest, hrest⟩ := (isPrefixL_iff pat s).mp h
  subst hrest
  rw [List.drop_left]

theorem occursL_decomp (pat : List Char) :
    ∀ s : List Char, occursL pat s = true →
      ∃ pre post, s = pre ++ pat ++ post ∧ replaceFirstL pat s = pre ++ post := by
  intro s
  induction s with
  | nil =>
    intro h
    simp [occursL] at h
    obtain ⟨rest, hrest⟩ := (isPrefixL_iff pat []).mp h
    have hpat : pat = [] := by
      cases pat with
      | nil => rfl
      | cons c cs => simp at hrest
    subst hpat
    exact ⟨[], [], by simp, by simp [replaceFirstL]⟩
  | cons c cs ih =>
    intro h
    by_cases hp : isPrefixL pat (c :: cs) = true
    · refine ⟨[], List.drop pat.length (c :: cs), ?_, ?_⟩
      · simpa using isPrefixL_drop pat (c :: cs) hp
      · simp [replaceFirstL, hp]
    · have h2 : occursL pat cs = true := by
        unfold occursL at h
        simpa [hp] using h
      obtain ⟨pre, post, hs, hr⟩ := ih h2
      refine ⟨c :: pre, post, by simp [hs], ?_⟩
      simp [replaceFirstL, hp, hr]

/-! ### C4: the filtering policy -/

/-- C4: a resolved descriptor is excluded iff it is standard-library with
includeStdlib off, or (includeThirdParty off, path not starting with the
root package, path starting with one of github.com, bitbucket.org,
launchpad.net, code.google.com); unrecognized domains are retained. -/
theorem c4_filter_iff (cfg : Config) (p : GoPackage) :
    (isStdlib cfg p || isThirdParty cfg p) = true ↔
      ((p.goroot = true ∧ cfg.isIncludeStdlib = false) ∨
        (cfg.isIncludeLibs = false ∧
          hasPrefixS cfg.rootPackage p.importPath = false ∧
          (hasPrefixS ("github.com") p.importPath = true ∨
            hasPrefixS ("bitbucket.org") p.importPath = true ∨
            hasPrefixS ("launchpad.net") p.importPath = true ∨
            hasPrefixS ("code.google.com") p.importPath = true))) := by
  unfold isStdlib isThirdParty thirdPartyRoots
  cases hs : cfg.isIncludeStdlib <;> cases hl : cfg.isIncludeLibs <;>
    cases hg : p.goroot <;> cases hp : hasPrefixS cfg.rootPackage p.importPath <;>
      simp [List.any_cons, List.any_nil, hp]

/-- Witness for C4 at a concrete configuration and package: a third-party
package under github.com is excluded when the flags are off. -/
theorem c4_filter_iff_witness :
    (isStdlib ⟨"me/app", false, false, false⟩ ⟨"github.com/x/y", [], false⟩ ||
      isThirdParty ⟨"me/app", false, false, false⟩ ⟨"github.com/x/y", [], false⟩) = true :=
  (c4_filter_iff ⟨"me/app", false, false, false⟩ ⟨"github.com/x/y", [], false⟩).mpr
    (Or.inr ⟨rfl, by decide, Or.inl (by decide)⟩)

/-! ### C6: the name-shortening contract -/

/-- C6: short returns the name unchanged when -short is off or the name is
not strictly longer than the root package; otherwise it removes one
occurrence of the root package, wherever it lies (a single substring
replacement), and trims surrounding '/' characters. -/
theorem c6_short_contract :
    (∀ cfg name, cfg.isShort = false → short cfg name = name) ∧
    (∀ cfg name, name.length ≤ cfg.rootPackage.length → short cfg name = name) ∧
    (∀ cfg name, cfg.isShort = true → cfg.rootPackage.length < name.length →
      occursL cfg.rootPackage.data name.data = true →
      ∃ pre post, name.data = pre ++ cfg.rootPackage.data ++ post ∧
        (short cfg name).data = trimSlash (pre ++ post)) := by
  refine ⟨?_, ?_, ?_⟩
  · intro cfg name h
    simp [short, h]
  · intro cfg name h
    by_cases hs : cfg.isShort = false
    · simp [short, hs]
    · simp [short, hs, h]
  · intro cfg name hs hlen hocc
    obtain ⟨pre, post, hdecomp, hrepl⟩ := occursL_decomp cfg.rootPackage.data name.data hocc
    refine ⟨pre, post, hdecomp, ?_⟩
    have hnle : ¬ name.length ≤ cfg.rootPackage.length := Nat.not_le.mpr hlen
    simp [short, hs, hnle, hrepl]

/-- Witness for C6: a no-op with the toggle off, a no-op on a name of equal
length, and a mid-string occurrence removed and trimmed. -/
theorem c6_short_contract_witness :
    short ⟨"a/b", false, false, false⟩ ("a/b/c") = "a/b/c" ∧
    short ⟨"a/b", false, false, true⟩ ("o/h") = "o/h" ∧
    ∃ pre post, ("x/a/b/c" : String).data = pre ++ ("a/b" : String).data ++ post ∧
      (short ⟨"a/b", false, false, true⟩ ("x/a/b/c")).data = trimSlash (pre ++ post) :=
  ⟨c6_short_contract.1 _ _ rfl,
    c6_short_contract.2.1 _ _ (by decide),
    c6_short_contract.2.2 ⟨"a/b", false, false, true⟩ ("x/a/b/c") rfl (by decide) (by decide)⟩

/-! ### C7: fail-fast on resolution errors -/

/-- C7: when the resolver fails on the root or on any import path reached
during the traversal, the program prints nothing beyond the title line —
no display function output is produced. -/
theorem c7_fatal_no_output (cfg : Config) (res : String → Option GoPackage)
    (mode : String) (fuel : Nat) :
    (res cfg.rootPackage = none →
      mainOutput cfg res mode fuel = some ["Dependencies of " ++ bold cfg.rootPackage]) ∧
    (∀ rpkg e, res cfg.rootPackage = some rpkg →
      analyze cfg res fuel rpkg 0 initSt = ARes.fatal e →
      mainOutput cfg res mode fuel = some ["Dependencies of " ++ bold cfg.rootPackage]) := by
  constructor
  · intro h
    simp only [mainOutput, h]
  · intro rpkg e hroot hfatal
    simp only [mainOutput, hroot, hfatal]

/-- Witness for C7: a root with one unresolvable import m produces just the
title line, in every display mode (here layers). -/
theorem c7_fatal_no_output_witness :
    mainOutput brokenCfg (mkRes brokenUL) ("layers") 8 =
      some ["Dependencies of " ++ bold ("r")] :=
  (c7_fatal_no_output brokenCfg (mkRes brokenUL) ("layers") 8).2 brokenRoot ("m")
    (by decide) (by decide)

/-! ### C2, counterexample: the traversal does not terminate on a cycle -/

/-- On the self-loop universe, any visit of x at a layer strictly above
every recorded layer of x re-expands x forever: the call exhausts any
amount of fuel. -/
theorem loop_no_fuel_suffices :
    ∀ fuel layer st, (∀ v, lookupA st.layerPos ("x") = some v → v < layer) →
      analyze loopCfg (mkRes loopUL) fuel loopRoot layer st = ARes.fuelOut := by
  intro fuel
  induction fuel with
  | zero => intro layer st hv; rfl
  | succ fuel ih =>
    intro layer st hv
    have hro : resolveOwned loopCfg (mkRes loopUL) loopRoot.imports =
        Except.ok [loopRoot] := rfl
    -- The recorded layer of x (if any) is < layer, so the memo branch is not
    -- taken and x is re-expanded; the recursive child visit of x at layer+1
    -- then sees the just-recorded layer < layer+1 and exhausts fuel by ih.
    have hrec : foldChildren (fun q s => analyze loopCfg (mkRes loopUL) fuel q (layer + 1) s)
        [loopRoot] (recordPkg (bumpLayer st layer) ("x") layer [loopRoot]) 0 =
        ARes.fuelOut := by
      have hlook : lookupA (recordPkg (bumpLayer st layer) ("x") layer [loopRoot]).layerPos
          ("x") = some layer := by
        simp [recordPkg, lookupA_updateA_self]
      have hchild : analyze loopCfg (mkRes loopUL) fuel loopRoot (layer + 1)
          (recordPkg (bumpLayer st layer) ("x") layer [loopRoot]) = ARes.fuelOut := by
        apply ih
        intro v hvv
        rw [hlook] at hvv
        injection hvv with hveq
        omega
      simp [foldChildren, hchild]
    cases hl : lookupA (bumpLayer st layer).layerPos ("x") with
    | none =>
      rw [analyze_expand_new loopCfg (mkRes loopUL) fuel loopRoot layer st hl]
      exact expandStep_fuelOut _ _ _ _ _ _ [loopRoot] hro hrec
    | some val =>
      have hvlt : val < layer := by
        apply hv
        rw [bumpLayer_layerPos] at hl
        exact hl
      rw [analyze_expand_deeper loopCfg (mkRes loopUL) fuel loopRoot layer st val hl hvlt]
      exact expandStep_fuelOut _ _ _ _ _ _ [loopRoot] hro hrec

/-- C2, counterexample: on the one-package cyclic universe x → x, no finite
fuel makes the traversal return — analyze recurses forever on a cycle, so
the claim that it terminates on every (possibly cyclic) finite universe is
false. -/
theorem c2_counterexample :
    ¬ ∃ fuel, analyze loopCfg (mkRes loopUL) fuel loopRoot 0 initSt ≠ ARes.fuelOut := by
  rintro ⟨fuel, hne⟩
  exact hne (loop_no_fuel_suffices fuel 0 initSt (by intro v hv; simp [initSt, lookupA] at hv))

/-! ### C1, counterexample: the recorded layer is not the minimum path length -/

/-- C1, counterexample: in the shortcut universe (r imports a and c, and a
then imports c) the path r → c has 1 edge, yet the recorded layer of c is 2 —
the recorded layer is not the minimum over root-to-c paths of the edge
count. -/
theorem c1_counterexample :
    layerOf shortcutRun ("c") = some 2 ∧
    Reach shortcutCfg (mkRes shortcutUL) ("r") 1 ("c") ∧
    ¬ (∀ m, Reach shortcutCfg (mkRes shortcutUL) ("r") m ("c") → 2 ≤ m) := by
  refine ⟨by decide, ?_, ?_⟩
  · refine Reach.step 0 ("r") ("c") Reach.refl ?_
    refine ⟨shortcutRoot, [⟨"a", ["c"], false⟩, ⟨"c", [], false⟩], rfl, rfl, ?_⟩
    simp
  · intro h
    have h1 : Reach shortcutCfg (mkRes shortcutUL) ("r") 1 ("c") := by
      refine Reach.step 0 ("r") ("c") Reach.refl ?_
      refine ⟨shortcutRoot, [⟨"a", ["c"], false⟩, ⟨"c", [], false⟩], rfl, rfl, ?_⟩
      simp
    have := h 1 h1
    omega

/-! ### C3: the layers display does not annotate zero-dependency packages -/

/-- C3: on the chain universe, the layers-mode output renders the
zero-dependency package b as the bare name "b" in its layer line, with no
dependency count, although its recorded dependency count is 0 — packages
with zero dependencies are not annotated. -/
theorem c3_layers_zero_dep_bare :
    mainOutput chainCfg (mkRes chainUL) ("layers") 10 =
      some ["Dependencies of \x1b[1mr\x1b[0m", "Top-down dependency layers",
        "Number after package name is number of imports",
        "0: r 1", "1: a 1", "2: b"] ∧
    lookupA chainFinalSt.numDeps ("b") = some 0 := by
  constructor
  · decide
  · decide

/-! ### Invariant preservation through the traversal -/

/-- Generic preservation through the child loop: a state predicate P and a
reflexive-transitive relation M preserved by each child visit are preserved
by the whole loop. -/
theorem foldChildren_pres (f : GoPackage → ASt → ARes) (P : ASt → Prop)
    (M : ASt → ASt → Prop) (hMrefl : ∀ s, M s s)
    (hMtrans : ∀ a b c, M a b → M b c → M a c) (l : List GoPackage)
    (hf : ∀ q ∈ l, ∀ s s2 d, P s → f q s = ARes.ok s2 d → P s2 ∧ M s s2) :
    ∀ st acc st2 acc2, foldChildren f l st acc = ARes.ok st2 acc2 → P st →
      P st2 ∧ M st st2 := by
  induction l with
  | nil =>
    intro st acc st2 acc2 h hP
    simp only [foldChildren] at h
    injection h with h1 h2
    subst h1
    exact ⟨hP, hMrefl st⟩
  | cons q qs ih =>
    intro st acc st2 acc2 h hP
    cases hq : f q st with
    | fuelOut =>
      simp only [foldChildren, hq] at h
      exact ARes.noConfusion h
    | fatal e =>
      simp only [foldChildren, hq] at h
      exact ARes.noConfusion h
    | ok s2 d =>
      simp only [foldChildren, hq] at h
      have h1 := hf q (by simp) st s2 d hP hq
      have h2 := ih (fun q2 hq2 => hf q2 (by simp [hq2])) s2 _ st2 acc2 h h1.1
      exact ⟨h2.1, hMtrans st s2 st2 h1.2 h2.2⟩

theorem basicInv_init : BasicInv initSt := by
  refine ⟨by simp [initSt], by simp [initSt], by simp [initSt], by simp [initSt],
    ?_, ?_, ?_⟩ <;> intro p <;> simp [initSt, lookupA]

theorem basicInv_bump (st : ASt) (layer : Nat) (h : BasicInv st) :
    BasicInv (bumpLayer st layer) := by
  obtain ⟨h1, h2, h3, h4, h5, h6, h7⟩ := h
  refine ⟨?_, ?_, ?_, ?_, ?_, ?_, ?_⟩
  · rw [bumpLayer_deps]; exact h1
  · rw [bumpLayer_numDeps]; exact h2
  · rw [bumpLayer_layerPos]; exact h3
  · rw [bumpLayer_depth]; exact h4
  · intro p v hv
    rw [bumpLayer_layerPos] at hv
    exact le_trans (h5 p v hv) (lowestLayer_le_bumpLayer st layer)
  · intro p n hn
    rw [bumpLayer_numDeps] at hn
    rw [bumpLayer_maxDeps]
    exact h6 p n hn
  · intro p
    rw [bumpLayer_numDeps, bumpLayer_deps]
    exact h7 p

theorem maxDeps_le_recordPkg (st : ASt) (path : String) (layer : Nat)
    (ours : List GoPackage) : st.maxDeps ≤ (recordPkg st path layer ours).maxDeps := by
  show st.maxDeps ≤ if st.maxDeps < ours.length then ours.length else st.maxDeps
  split <;> omega

theorem basicInv_record (st : ASt) (path : String) (layer : Nat) (ours : List GoPackage)
    (h : BasicInv st) (hlay : layer ≤ st.lowestLayer) :
    BasicInv (recordPkg st path layer ours) := by
  obtain ⟨h1, h2, h3, h4, h5, h6, h7⟩ := h
  refine ⟨?_, ?_, ?_, ?_, ?_, ?_, ?_⟩
  · exact nodup_keys_updateA st.deps path ours h1
  · exact nodup_keys_updateA st.numDeps path ours.length h2
  · exact nodup_keys_updateA st.layerPos path layer h3
  · exact h4
  · intro p v hv
    show v ≤ st.lowestLayer
    by_cases hp : p = path
    · subst hp
      rw [show (recordPkg st p layer ours).layerPos = updateA st.layerPos p layer from rfl,
        lookupA_updateA_self] at hv
      injection hv with hv2
      omega
    · rw [show (recordPkg st path layer ours).layerPos = updateA st.layerPos path layer from rfl,
        lookupA_updateA_ne st.layerPos path p layer hp] at hv
      exact h5 p v hv
  · intro p n hn
    by_cases hp : p = path
    · subst hp
      rw [show (recordPkg st p layer ours).numDeps = updateA st.numDeps p ours.length from rfl,
        lookupA_updateA_self] at hn
      injection hn with hn2
      subst hn2
      show ours.length ≤ if st.maxDeps < ours.length then ours.length else st.maxDeps
      split <;> omega
    · rw [show (recordPkg st path layer ours).numDeps = updateA st.numDeps path ours.length
          from rfl,
        lookupA_updateA_ne st.numDeps path p ours.length hp] at hn
      exact le_trans (h6 p n hn) (maxDeps_le_recordPkg st path layer ours)
  · intro p
    by_cases hp : p = path
    · subst hp
      rw [show (recordPkg st p layer ours).numDeps = updateA st.numDeps p ours.length from rfl,
        show (recordPkg st p layer ours).deps = updateA st.deps p ours from rfl,
        lookupA_updateA_self, lookupA_updateA_self]
      rfl
    · rw [show (recordPkg st path layer ours).numDeps = updateA st.numDeps path ours.length
          from rfl,
        show (recordPkg st path layer ours).deps = updateA st.deps path ours from rfl,
        lookupA_updateA_ne st.numDeps path p ours.length hp,
        lookupA_updateA_ne st.deps path p ours hp]
      exact h7 p

theorem basicInv_finish (st : ASt) (path : String) (d : Nat) (h : BasicInv st) :
    BasicInv (finishPkg st path d) := by
  obtain ⟨h1, h2, h3, h4, h5, h6, h7⟩ := h
  exact ⟨h1, h2, h3, nodup_keys_updateA st.depth path d h4, h5, h6, h7⟩

theorem expandStep_basic (cfg : Config) (res : String → Option GoPackage)
    (f : GoPackage → ASt → ARes) (pkg : GoPackage) (layer : Nat) (st st' : ASt) (d : Nat)
    (hf : ∀ q s s2 dd, BasicInv s → f q s = ARes.ok s2 dd →
      BasicInv s2 ∧ s.lowestLayer ≤ s2.lowestLayer ∧ s.maxDeps ≤ s2.maxDeps)
    (h : expandStep cfg res f pkg layer st = ARes.ok st' d)
    (hB : BasicInv st) (hlay : layer ≤ st.lowestLayer) :
    BasicInv st' ∧ st.lowestLayer ≤ st'.lowestLayer ∧ st.maxDeps ≤ st'.maxDeps := by
  rcases expandStep_cases cfg res f pkg layer st with ⟨e, hro, heq⟩ | ⟨ours, hro, hrest⟩
  · rw [heq] at h; exact ARes.noConfusion h
  · rcases hrest with ⟨hfold, heq⟩ | ⟨e, hfold, heq⟩ | ⟨st3, acc, hfold, heq⟩
    · rw [heq] at h; exact ARes.noConfusion h
    · rw [heq] at h; exact ARes.noConfusion h
    · rw [heq] at h
      injection h with h1 h2
      subst h1
      have hrec0 : BasicInv (recordPkg st pkg.importPath layer ours) :=
        basicInv_record st pkg.importPath layer ours hB hlay
      have hfold2 := foldChildren_pres f BasicInv
        (fun a b => a.lowestLayer ≤ b.lowestLayer ∧ a.maxDeps ≤ b.maxDeps)
        (fun s => ⟨le_refl _, le_refl _⟩)
        (fun a b c hab hbc => ⟨le_trans hab.1 hbc.1, le_trans hab.2 hbc.2⟩)
        ours (fun q _ s s2 dd hP hfq => hf q s s2 dd hP hfq)
        (recordPkg st pkg.importPath layer ours) 0 st3 acc hfold hrec0
      refine ⟨basicInv_finish st3 pkg.importPath _ hfold2.1, ?_, ?_⟩
      · exact le_trans (le_of_eq rfl) hfold2.2.1
      · exact le_trans (maxDeps_le_recordPkg st pkg.importPath layer ours) hfold2.2.2

theorem analyze_basic (cfg : Config) (res : String → Option GoPackage) :
    ∀ fuel pkg layer st0 st' d,
      analyze cfg res fuel pkg layer st0 = ARes.ok st' d → BasicInv st0 →
      BasicInv st' ∧ st0.lowestLayer ≤ st'.lowestLayer ∧ st0.maxDeps ≤ st'.maxDeps := by
  intro fuel
  induction fuel with
  | zero => intro pkg layer st0 st' d h hB; exact ARes.noConfusion h
  | succ fuel ih =>
    intro pkg layer st0 st' d h hB
    have hBb : BasicInv (bumpLayer st0 layer) := basicInv_bump st0 layer hB
    have hmono : st0.lowestLayer ≤ (bumpLayer st0 layer).lowestLayer :=
      lowestLayer_le_bumpLayer st0 layer
    have hmax : st0.maxDeps ≤ (bumpLayer st0 layer).maxDeps :=
      le_of_eq (bumpLayer_maxDeps st0 layer).symm
    cases hl : lookupA (bumpLayer st0 layer).layerPos pkg.importPath with
    | some val =>
      by_cases hle : layer ≤ val
      · rw [analyze_memo cfg res fuel pkg layer st0 val hl hle] at h
        injection h with h1 h2
        subst h1
        exact ⟨hBb, hmono, hmax⟩
      · rw [analyze_expand_deeper cfg res fuel pkg layer st0 val hl (Nat.not_le.mp hle)] at h
        have hres := expandStep_basic cfg res _ pkg layer (bumpLayer st0 layer) st' d
          (fun q s s2 dd hP hfq => ih q (layer + 1) s s2 dd hfq hP) h hBb
          (le_bumpLayer_lowestLayer st0 layer)
        exact ⟨hres.1, le_trans hmono hres.2.1, le_trans hmax hres.2.2⟩
    | none =>
      rw [analyze_expand_new cfg res fuel pkg layer st0 hl] at h
      have hres := expandStep_basic cfg res _ pkg layer (bumpLayer st0 layer) st' d
        (fun q s s2 dd hP hfq => ih q (layer + 1) s s2 dd hfq hP) h hBb
        (le_bumpLayer_lowestLayer st0 layer)
      exact ⟨hres.1, le_trans hmono hres.2.1, le_trans hmax hres.2.2⟩

/-! ### C9: DependencyCount agrees with the Graph -/

/-- C9: after a completed traversal from the initial state, numDeps and deps
have the same key set and for every import path the recorded count is the
length of the recorded owned-dependency list — however often packages were
revisited or re-expanded. -/
theorem c9_dependency_count (cfg : Config) (res : String → Option GoPackage)
    (fuel : Nat) (rpkg : GoPackage) (st : ASt) (d : Nat)
    (h : analyze cfg res fuel rpkg 0 initSt = ARes.ok st d) :
    ∀ p, lookupA st.numDeps p = (lookupA st.deps p).map List.length :=
  fun p =>
    (analyze_basic cfg res fuel rpkg 0 initSt st d h basicInv_init).1.2.2.2.2.2.2 p

/-- Witness for C9 on the completed chain traversal. -/
theorem c9_dependency_count_witness :
    lookupA chainFinalSt.numDeps ("r") = (lookupA chainFinalSt.deps ("r")).map List.length :=
  c9_dependency_count chainCfg (mkRes chainUL) 10 chainRoot chainFinalSt 2 (by decide) ("r")

/-! ### Depth bounds for the grouping displays -/

theorem foldChildren_depth_bound (f : GoPackage → ASt → ARes) (l : List GoPackage)
    (hf : ∀ q ∈ l, ∀ s s2 dd, f q s = ARes.ok s2 dd →
      ∀ p v, lookupA s2.depth p = some v → lookupA s.depth p = some v ∨ v ≤ dd) :
    ∀ st acc st2 acc2, foldChildren f l st acc = ARes.ok st2 acc2 →
      (∀ p v, lookupA st2.depth p = some v → lookupA st.depth p = some v ∨ v ≤ acc2) ∧
      acc ≤ acc2 := by
  induction l with
  | nil =>
    intro st acc st2 acc2 h
    simp only [foldChildren] at h
    injection h with h1 h2
    subst h1
    subst h2
    exact ⟨fun p v hv => Or.inl hv, le_refl acc⟩
  | cons q qs ih =>
    intro st acc st2 acc2 h
    cases hq : f q st with
    | fuelOut =>
      simp only [foldChildren, hq] at h
      exact ARes.noConfusion h
    | fatal e =>
      simp only [foldChildren, hq] at h
      exact ARes.noConfusion h
    | ok s2 dd =>
      simp only [foldChildren, hq] at h
      have hrest := ih (fun q2 hq2 => hf q2 (by simp [hq2])) s2 _ st2 acc2 h
      have hacc : (if acc < dd then dd else acc) ≤ acc2 := hrest.2
      have hle1 : acc ≤ acc2 := by
        by_cases hc : acc < dd
        · rw [if_pos hc] at hacc; omega
        · rw [if_neg hc] at hacc; omega
      have hledd : dd ≤ acc2 := by
        by_cases hc : acc < dd
        · rw [if_pos hc] at hacc; omega
        · rw [if_neg hc] at hacc; omega
      refine ⟨?_, hle1⟩
      intro p v hv
      rcases hrest.1 p v hv with hold | hle
      · rcases hf q (by simp) st s2 dd hq p v hold with hold2 | hle2
        · exact Or.inl hold2
        · exact Or.inr (le_trans hle2 hledd)
      · exact Or.inr hle

theorem expandStep_depth_bound (cfg : Config) (res : String → Option GoPackage)
    (f : GoPackage → ASt → ARes) (pkg : GoPackage) (layer : Nat) (st st' : ASt) (d : Nat)
    (hf : ∀ q s s2 dd, f q s = ARes.ok s2 dd →
      ∀ p v, lookupA s2.depth p = some v → lookupA s.depth p = some v ∨ v ≤ dd)
    (h : expandStep cfg res f pkg layer st = ARes.ok st' d) :
    ∀ p v, lookupA st'.depth p = some v → lookupA st.depth p = some v ∨ v ≤ d := by
  rcases expandStep_cases cfg res f pkg layer st with ⟨e, hro, heq⟩ | ⟨ours, hro, hrest⟩
  · rw [heq] at h; exact ARes.noConfusion h
  · rcases hrest with ⟨hfold, heq⟩ | ⟨e, hfold, heq⟩ | ⟨st3, acc, hfold, heq⟩
    · rw [heq] at h; exact ARes.noConfusion h
    · rw [heq] at h; exact ARes.noConfusion h
    · rw [heq] at h
      injection h with h1 h2
      subst h1
      subst h2
      intro p v hv
      have hbound := foldChildren_depth_bound f ours (fun q _ s s2 dd hfq => hf q s s2 dd hfq)
        (recordPkg st pkg.importPath layer ours) 0 st3 acc hfold
      have hord : acc ≤ (if ours.isEmpty then acc else acc + 1) := by split <;> omega
      by_cases hp : p = pkg.importPath
      · subst hp
        rw [show (finishPkg st3 pkg.importPath (if ours.isEmpty then acc else acc + 1)).depth =
            updateA st3.depth pkg.importPath (if ours.isEmpty then acc else acc + 1) from rfl,
          lookupA_updateA_self] at hv
        injection hv with hv2
        omega
      · rw [show (finishPkg st3 pkg.importPath (if ours.isEmpty then acc else acc + 1)).depth =
            updateA st3.depth pkg.importPath (if ours.isEmpty then acc else acc + 1) from rfl,
          lookupA_updateA_ne st3.depth pkg.importPath p _ hp] at hv
        rcases hbound.1 p v hv with hold | hle
        · exact Or.inl hold
        · exact Or.inr (le_trans hle hord)

theorem analyze_depth_bound (cfg : Config) (res : String → Option GoPackage) :
    ∀ fuel pkg layer st0 st' d,
      analyze cfg res fuel pkg layer st0 = ARes.ok st' d →
      ∀ p v, lookupA st'.depth p = some v → lookupA st0.depth p = some v ∨ v ≤ d := by
  intro fuel
  induction fuel with
  | zero => intro pkg layer st0 st' d h; exact ARes.noConfusion h
  | succ fuel ih =>
    intro pkg layer st0 st' d h
    cases hl : lookupA (bumpLayer st0 layer).layerPos pkg.importPath with
    | some val =>
      by_cases hle : layer ≤ val
      · rw [analyze_memo cfg res fuel pkg layer st0 val hl hle] at h
        injection h with h1 h2
        subst h1
        intro p v hv
        rw [bumpLayer_depth] at hv
        exact Or.inl hv
      · rw [analyze_expand_deeper cfg res fuel pkg layer st0 val hl (Nat.not_le.mp hle)] at h
        intro p v hv
        rcases expandStep_depth_bound cfg res _ pkg layer (bumpLayer st0 layer) st' d
          (fun q s s2 dd hfq => ih q (layer + 1) s s2 dd hfq) h p v hv with hold | hle2
        · rw [bumpLayer_depth] at hold; exact Or.inl hold
        · exact Or.inr hle2
    | none =>
      rw [analyze_expand_new cfg res fuel pkg layer st0 hl] at h
      intro p v hv
      rcases expandStep_depth_bound cfg res _ pkg layer (bumpLayer st0 layer) st' d
        (fun q s s2 dd hfq => ih q (layer + 1) s s2 dd hfq) h p v hv with hold | hle2
      · rw [bumpLayer_depth] at hold; exact Or.inl hold
      · exact Or.inr hle2

/-- A call on a package with no recorded layer expands it, so the final
state records its depth as the returned value. -/
theorem analyze_root_depth (cfg : Config) (res : String → Option GoPackage)
    (fuel : Nat) (pkg : GoPackage) (layer : Nat) (st0 st' : ASt) (d : Nat)
    (h : analyze cfg res fuel pkg layer st0 = ARes.ok st' d)
    (hnone : lookupA st0.layerPos pkg.importPath = none) :
    lookupA st'.depth pkg.importPath = some d := by
  cases fuel with
  | zero => exact ARes.noConfusion h
  | succ fuel =>
    have hl : lookupA (bumpLayer st0 layer).layerPos pkg.importPath = none := by
      rw [bumpLayer_layerPos]; exact hnone
    rw [analyze_expand_new cfg res fuel pkg layer st0 hl] at h
    rcases expandStep_cases cfg res (fun q s => analyze cfg res fuel q (layer + 1) s)
        pkg layer (bumpLayer st0 layer) with ⟨e, hro, heq⟩ | ⟨ours, hro, hrest⟩
    · rw [heq] at h; exact ARes.noConfusion h
    · rcases hrest with ⟨hfold, heq⟩ | ⟨e, hfold, heq⟩ | ⟨st3, acc, hfold, heq⟩
      · rw [heq] at h; exact ARes.noConfusion h
      · rw [heq] at h; exact ARes.noConfusion h
      · rw [heq] at h
        injection h with h1 h2
        subst h1
        subst h2
        rw [show (finishPkg st3 pkg.importPath (if ours.isEmpty then acc else acc + 1)).depth =
            updateA st3.depth pkg.importPath (if ours.isEmpty then acc else acc + 1) from rfl,
          lookupA_updateA_self]

/-! ### Bucketing lemmas -/

theorem addToBucket_some (bs : List (List String)) (v : Nat) (s : String)
    (h : v < bs.length) :
    ∃ bs2, addToBucket bs v s = some bs2 ∧ bs2.length = bs.length ∧
      ∀ i, bs2.getD i [] = if i = v then bs.getD v [] ++ [s] else bs.getD i [] := by
  induction bs generalizing v with
  | nil => simp at h
  | cons b rest ih =>
    cases v with
    | zero =>
      refine ⟨(b ++ [s]) :: rest, rfl, by simp, ?_⟩
      intro i
      cases i with
      | zero => simp
      | succ j => simp
    | succ n =>
      have hn : n < rest.length := by simpa using h
      obtain ⟨bs2, hadd, hlen, hget⟩ := ih n hn
      refine ⟨b :: bs2, by simp [addToBucket, hadd], by simp [hlen], ?_⟩
      intro i
      cases i with
      | zero => simp
      | succ j =>
        have := hget j
        simp only [List.getD_cons_succ]
        rw [this]
        by_cases hj : j = n
        · simp [hj]
        · simp [hj, Nat.succ_ne_succ.mpr hj]

theorem fillBuckets_some : ∀ (entries : List (String × Nat)) (bs : List (List String)),
    (∀ kv ∈ entries, kv.2 < bs.length) →
    ∃ bs2, fillBuckets entries bs = some bs2 ∧ bs2.length = bs.length ∧
      ∀ i name, name ∈ bs2.getD i [] ↔ name ∈ bs.getD i [] ∨ (name, i) ∈ entries := by
  intro entries
  induction entries with
  | nil =>
    intro bs hb
    exact ⟨bs, rfl, rfl, by simp⟩
  | cons kv rest ih =>
    intro bs hb
    obtain ⟨nm, v⟩ := kv
    have hv : v < bs.length := hb (nm, v) (by simp)
    obtain ⟨bs1, hadd, hlen1, hget1⟩ := addToBucket_some bs v nm hv
    have hb2 : ∀ kv ∈ rest, kv.2 < bs1.length := by
      intro kv hkv
      rw [hlen1]
      exact hb kv (by simp [hkv])
    obtain ⟨bs2, hfill, hlen2, hget2⟩ := ih bs1 hb2
    refine ⟨bs2, by simp [fillBuckets, hadd, hfill], by rw [hlen2, hlen1], ?_⟩
    intro i name
    rw [hget2 i name, hget1 i]
    by_cases hi : i = v
    · subst hi
      simp [List.mem_append, List.mem_cons, Prod.mk.injEq]
      tauto
    · rw [if_neg hi]
      simp [List.mem_cons, Prod.mk.injEq, hi]

theorem getD_replicate_nilList : ∀ (size i : Nat),
    (List.replicate size ([] : List String)).getD i [] = [] := by
  intro size
  induction size with
  | zero => intro i; cases i <;> simp [List.replicate]
  | succ n ih =>
    intro i
    cases i with
    | zero => simp [List.replicate]
    | succ j => simp [List.replicate, ih j]

theorem bucketize_some (size : Nat) (entries : List (String × Nat))
    (h : ∀ kv ∈ entries, kv.2 < size) :
    ∃ bs, bucketize size entries = some bs ∧ bs.length = size ∧
      ∀ i name, name ∈ bs.getD i [] ↔ (name, i) ∈ entries := by
  obtain ⟨bs, hfill, hlen, hget⟩ := fillBuckets_some entries (List.replicate size [])
    (by intro kv hkv; rw [List.length_replicate]; exact h kv hkv)
  refine ⟨bs, hfill, by rw [hlen, List.length_replicate], ?_⟩
  intro i name
  rw [hget i name, getD_replicate_nilList]
  simp

/-! ### C10: the grouping displays never index out of range -/

/-- C10: after any completed traversal from the initial state, every
recorded layer is at most lowestLayer, every dependency count at most
maxDeps, every recorded depth at most the root package's depth, and
consequently the three grouping displays succeed (no slice-index panic). -/
theorem c10_display_safety (cfg : Config) (res : String → Option GoPackage)
    (fuel : Nat) (rpkg : GoPackage) (st : ASt) (d : Nat)
    (h : analyze cfg res fuel rpkg 0 initSt = ARes.ok st d)
    (hroot : rpkg.importPath = cfg.rootPackage) :
    (∀ p v, lookupA st.layerPos p = some v → v ≤ st.lowestLayer) ∧
    (∀ p n, lookupA st.numDeps p = some n → n ≤ st.maxDeps) ∧
    (∀ p v, lookupA st.depth p = some v → v ≤ getD st.depth cfg.rootPackage 0) ∧
    (layerDisplay cfg st).isSome ∧ (countDisplay st).isSome ∧
    (depthDisplay cfg st cfg.rootPackage).isSome := by
  have hB := (analyze_basic cfg res fuel rpkg 0 initSt st d h basicInv_init).1
  obtain ⟨hnd1, hnd2, hnd3, hnd4, hlayb, hnumb, hcoh⟩ := hB
  have hrd : lookupA st.depth cfg.rootPackage = some d := by
    rw [← hroot]
    exact analyze_root_depth cfg res fuel rpkg 0 initSt st d h rfl
  have hgetd : getD st.depth cfg.rootPackage 0 = d := by
    rw [getD, hrd]
    rfl
  have hdepthb : ∀ p v, lookupA st.depth p = some v → v ≤ getD st.depth cfg.rootPackage 0 := by
    intro p v hv
    rcases analyze_depth_bound cfg res fuel rpkg 0 initSt st d h p v hv with hold | hle
    · simp [initSt, lookupA] at hold
    · rw [hgetd]; exact hle
  refine ⟨hlayb, hnumb, hdepthb, ?_, ?_, ?_⟩
  · obtain ⟨bs, hbk, _, _⟩ := bucketize_some (st.lowestLayer + 1) st.layerPos
      (by
        intro kv hkv
        have := hlayb kv.1 kv.2 (lookupA_of_mem_nodup st.layerPos kv.1 kv.2 hnd3 (by simpa))
        omega)
    simp [layerDisplay, hbk]
  · obtain ⟨bs, hbk, _, _⟩ := bucketize_some (st.maxDeps + 1) st.numDeps
      (by
        intro kv hkv
        have := hnumb kv.1 kv.2 (lookupA_of_mem_nodup st.numDeps kv.1 kv.2 hnd2 (by simpa))
        omega)
    simp [countDisplay, countBuckets, hbk]
  · obtain ⟨bs, hbk, _, _⟩ := bucketize_some (getD st.depth cfg.rootPackage 0 + 1) st.depth
      (by
        intro kv hkv
        have := hdepthb kv.1 kv.2 (lookupA_of_mem_nodup st.depth kv.1 kv.2 hnd4 (by simpa))
        omega)
    simp [depthDisplay, depthBuckets, hbk]

/-- Witness for C10 on the completed chain traversal: all three grouping
displays succeed. -/
theorem c10_display_safety_witness :
    (layerDisplay chainCfg chainFinalSt).isSome ∧
    (countDisplay chainFinalSt).isSome ∧
    (depthDisplay chainCfg chainFinalSt (chainCfg.rootPackage)).isSome :=
  ⟨(c10_display_safety chainCfg (mkRes chainUL) 10 chainRoot chainFinalSt 2
      (by decide) rfl).2.2.2.1,
    (c10_display_safety chainCfg (mkRes chainUL) 10 chainRoot chainFinalSt 2
      (by decide) rfl).2.2.2.2.1,
    (c10_display_safety chainCfg (mkRes chainUL) 10 chainRoot chainFinalSt 2
      (by decide) rfl).2.2.2.2.2⟩

/-! ### Termination on acyclic universes -/

/-- Every package retained by the resolution loop is resolver-backed: the
resolver maps its import path to exactly this descriptor. -/
theorem resolveOwned_backed (cfg : Config) (res : String → Option GoPackage)
    (hRW : RWres res) : ∀ imps l, resolveOwned cfg res imps = Except.ok l →
      ∀ q ∈ l, res q.importPath = some q := by
  intro imps
  induction imps with
  | nil =>
    intro l h q hq
    simp only [resolveOwned] at h
    injection h with h1
    subst h1
    simp at hq
  | cons p rest ih =>
    intro l h q hq
    by_cases hc : p = "C"
    · rw [show resolveOwned cfg res (p :: rest) = resolveOwned cfg res rest by
        simp [resolveOwned, hc]] at h
      exact ih l h q hq
    · cases hres : res p with
      | none => simp [resolveOwned, hc, hres] at h
      | some innerPkg =>
        cases hro : resolveOwned cfg res rest with
        | error e => simp [resolveOwned, hc, hres, hro] at h
        | ok others =>
          by_cases hkeep : (!isStdlib cfg innerPkg && !isThirdParty cfg innerPkg) = true
          · rw [show resolveOwned cfg res (p :: rest) = Except.ok (innerPkg :: others) by
              simp [resolveOwned, hc, hres, hro, hkeep]] at h
            injection h with h1
            subst h1
            rcases List.mem_cons.mp hq with hq1 | hq1
            · subst hq1
              rw [hRW p q hres]
              exact hres
            · exact ih others hro q hq1
          · rw [show resolveOwned cfg res (p :: rest) = Except.ok others by
              simp [resolveOwned, hc, hres, hro, hkeep]] at h
            injection h with h1
            subst h1
            exact ih others hro q hq

theorem foldChildren_no_fuelOut (f : GoPackage → ASt → ARes) (l : List GoPackage)
    (hf : ∀ q ∈ l, ∀ s, f q s ≠ ARes.fuelOut) :
    ∀ st acc, foldChildren f l st acc ≠ ARes.fuelOut := by
  induction l with
  | nil =>
    intro st acc h
    simp only [foldChildren] at h
    exact ARes.noConfusion h
  | cons q qs ih =>
    intro st acc h
    cases hq : f q st with
    | fuelOut => exact hf q (by simp) st hq
    | fatal e =>
      simp only [foldChildren, hq] at h
      exact ARes.noConfusion h
    | ok s2 d =>
      simp only [foldChildren, hq] at h
      exact ih (fun q2 hq2 => hf q2 (by simp [hq2])) s2 _ h

/-- With a rank function strictly decreasing along owned edges, any fuel
exceeding the rank of the visited package suffices: the traversal never
runs out of fuel (it completes or stops at a resolver error). -/
theorem analyze_no_fuelOut (cfg : Config) (res : String → Option GoPackage)
    (r : String → Nat) (hRW : RWres res) (hrank : RankDec cfg res r) :
    ∀ fuel pkg layer st, res pkg.importPath = some pkg → r pkg.importPath < fuel →
      analyze cfg res fuel pkg layer st ≠ ARes.fuelOut := by
  intro fuel
  induction fuel with
  | zero =>
    intro pkg layer st hres hr
    omega
  | succ fuel ih =>
    intro pkg layer st hres hr h
    cases hl : lookupA (bumpLayer st layer).layerPos pkg.importPath with
    | some val =>
      by_cases hle : layer ≤ val
      · rw [analyze_memo cfg res fuel pkg layer st val hl hle] at h
        exact ARes.noConfusion h
      · rw [analyze_expand_deeper cfg res fuel pkg layer st val hl (Nat.not_le.mp hle)] at h
        rcases expandStep_cases cfg res (fun q s => analyze cfg res fuel q (layer + 1) s)
            pkg layer (bumpLayer st layer) with ⟨e, hro, heq⟩ | ⟨ours, hro, hrest⟩
        · rw [heq] at h; exact ARes.noConfusion h
        · rcases hrest with ⟨hfold, heq⟩ | ⟨e, hfold, heq⟩ | ⟨st3, acc, hfold, heq⟩
          · refine foldChildren_no_fuelOut _ ours ?_ _ 0 hfold
            intro q hq s
            have hqb := resolveOwned_backed cfg res hRW pkg.imports ours hro q hq
            have hqr : r q.importPath < r pkg.importPath :=
              hrank pkg.importPath pkg ours q hres hro hq
            exact ih q (layer + 1) s hqb (by omega)
          · rw [heq] at h; exact ARes.noConfusion h
          · rw [heq] at h; exact ARes.noConfusion h
    | none =>
      rw [analyze_expand_new cfg res fuel pkg layer st hl] at h
      rcases expandStep_cases cfg res (fun q s => analyze cfg res fuel q (layer + 1) s)
          pkg layer (bumpLayer st layer) with ⟨e, hro, heq⟩ | ⟨ours, hro, hrest⟩
      · rw [heq] at h; exact ARes.noConfusion h
      · rcases hrest with ⟨hfold, heq⟩ | ⟨e, hfold, heq⟩ | ⟨st3, acc, hfold, heq⟩
        · refine foldChildren_no_fuelOut _ ours ?_ _ 0 hfold
          intro q hq s
          have hqb := resolveOwned_backed cfg res hRW pkg.imports ours hro q hq
          have hqr : r q.importPath < r pkg.importPath :=
            hrank pkg.importPath pkg ours q hres hro hq
          exact ih q (layer + 1) s hqb (by omega)
        · rw [heq] at h; exact ARes.noConfusion h
        · rw [heq] at h; exact ARes.noConfusion h

/-- Bridge: a finite universe whose entries are keyed by their canonical
paths gives a well-formed resolver. -/
theorem RWres_of_list (ul : List (String × GoPackage))
    (h : ∀ pr ∈ ul, pr.2.importPath = pr.1) : RWres (mkRes ul) := by
  intro p gp hres
  exact h (p, gp) (mem_of_lookupA ul p gp hres)

/-- Bridge: a decidable per-entry rank check on a finite universe gives the
rank-decrease property. -/
theorem RankDec_of_list (cfg : Config) (ul : List (String × GoPackage)) (r : String → Nat)
    (h : ∀ pr ∈ ul, ∀ q ∈ ownedListOf cfg (mkRes ul) pr.2, r q.importPath < r pr.1) :
    RankDec cfg (mkRes ul) r := by
  intro p gp l q hres hro hq
  have hmem := mem_of_lookupA ul p gp hres
  have howned : ownedListOf cfg (mkRes ul) gp = l := by simp [ownedListOf, hro]
  exact h (p, gp) hmem q (by rw [howned]; exact hq)

/-! ### C2 (amended): revisit rule and termination -/

/-- C2 (amended): a package reached again at the same or a smaller layer
than its recorded one is never re-expanded (the call returns the memoized
depth, leaving every map unchanged); a package reached strictly deeper is
re-expanded, so the traversal terminates on every universe admitting a rank
function that strictly decreases along owned edges (every acyclic finite
universe) — but not on cyclic ones. -/
theorem c2_revisit_and_termination :
    (∀ (cfg : Config) (res : String → Option GoPackage) (fuel : Nat) (pkg : GoPackage)
      (layer : Nat) (st0 : ASt) (val : Nat),
      lookupA (bumpLayer st0 layer).layerPos pkg.importPath = some val → layer ≤ val →
      analyze cfg res (fuel + 1) pkg layer st0 =
        ARes.ok (bumpLayer st0 layer) (getD (bumpLayer st0 layer).depth pkg.importPath 0)) ∧
    (∀ (cfg : Config) (res : String → Option GoPackage) (r : String → Nat)
      (rpkg : GoPackage), RWres res → RankDec cfg res r →
      res cfg.rootPackage = some rpkg →
      analyze cfg res (r cfg.rootPackage + 1) rpkg 0 initSt ≠ ARes.fuelOut) := by
  constructor
  · intro cfg res fuel pkg layer st0 val hl hle
    exact analyze_memo cfg res fuel pkg layer st0 val hl hle
  · intro cfg res r rpkg hRW hrank hroot
    have hpath : rpkg.importPath = cfg.rootPackage := hRW cfg.rootPackage rpkg hroot
    have hbacked : res rpkg.importPath = some rpkg := by rw [hpath]; exact hroot
    have hr : r rpkg.importPath < r cfg.rootPackage + 1 := by rw [hpath]; omega
    exact analyze_no_fuelOut cfg res r hRW hrank (r cfg.rootPackage + 1) rpkg 0 initSt
      hbacked hr

/-- Witness for C2 (amended): on the chain universe, fuel rank(root)+1 = 3
completes the traversal. -/
theorem c2_revisit_and_termination_witness :
    analyze chainCfg (mkRes chainUL) (chainRank ("r") + 1) chainRoot 0 initSt ≠
      ARes.fuelOut :=
  c2_revisit_and_termination.2 chainCfg (mkRes chainUL) chainRank chainRoot
    (RWres_of_list chainUL (by decide))
    (RankDec_of_list chainCfg chainUL chainRank (by decide))
    (by decide)

/-! ### Depth coherence: helper lemmas -/

theorem listDepth_congr (cfg : Config) (st st2 : ASt) (l : List GoPackage)
    (h : st2.depth = st.depth) : listDepth st2 l = listDepth st l := by
  simp [listDepth, getD, h]

theorem goodDepth_of_eq (cfg : Config) (res : String → Option GoPackage) (st st2 : ASt)
    (hdep : st2.depth = st.depth) (hdeps : st2.deps = st.deps)
    (h : GoodDepth cfg res st) : GoodDepth cfg res st2 := by
  intro p v hv
  rw [hdep] at hv
  obtain ⟨gp, l, h1, h2, h3, h4, h5⟩ := h p v hv
  refine ⟨gp, l, h1, h2, by rw [hdeps]; exact h3, ?_, ?_⟩
  · intro q hq
    rw [hdep]
    exact h4 q hq
  · rw [listDepth_congr cfg st st2 l hdep]
    exact h5

theorem broken_bump (st : ASt) (layer : Nat) (p : String) :
    Broken (bumpLayer st layer) p ↔ Broken st p := by
  simp [Broken, bumpLayer_layerPos, bumpLayer_depth]

theorem phaseInv_of_eq (st st2 : ASt) (hlay : st2.layerPos = st.layerPos)
    (hdeps : st2.deps = st.deps) (h : PhaseInv st) : PhaseInv st2 := by
  intro p hp
  rw [hlay]
  rw [hdeps] at hp
  exact h p hp

theorem depsCanon_of_eq (cfg : Config) (res : String → Option GoPackage) (st st2 : ASt)
    (hdeps : st2.deps = st.deps) (h : DepsCanon cfg res st) : DepsCanon cfg res st2 := by
  intro p l hl
  rw [hdeps] at hl
  exact h p l hl

theorem broken_record (st : ASt) (path : String) (layer : Nat) (ours : List GoPackage)
    (p : String) (h : Broken (recordPkg st path layer ours) p) :
    Broken st p ∨ p = path := by
  obtain ⟨h1, h2⟩ := h
  by_cases hp : p = path
  · exact Or.inr hp
  · rw [show (recordPkg st path layer ours).layerPos = updateA st.layerPos path layer
      from rfl, lookupA_updateA_ne st.layerPos path p layer hp] at h1
    exact Or.inl ⟨h1, h2⟩

theorem foldl_max_eq (g : GoPackage → Nat) (l : List GoPackage) :
    ∀ acc, List.foldl (fun a q => if a < g q then g q else a) acc l =
      max acc (maxOf (l.map g)) := by
  induction l with
  | nil =>
    intro acc
    simp [maxOf]
  | cons q qs ih =>
    intro acc
    have hstep : (if acc < g q then g q else acc) = max acc (g q) := by split <;> omega
    simp only [List.foldl_cons, List.map_cons]
    rw [hstep, ih (max acc (g q))]
    have hmax : maxOf (g q :: qs.map g) = max (g q) (maxOf (qs.map g)) := by
      simp [maxOf]
    rw [hmax]
    exact Nat.max_assoc acc (g q) (maxOf (qs.map g))

theorem goodDepth_record (cfg : Config) (res : String → Option GoPackage) (stB : ASt)
    (pkg : GoPackage) (layer : Nat) (ours : List GoPackage)
    (hbacked : res pkg.importPath = some pkg)
    (hro : resolveOwned cfg res pkg.imports = Except.ok ours)
    (hGS : GoodDepth cfg res stB) :
    GoodDepth cfg res (recordPkg stB pkg.importPath layer ours) := by
  intro p v hv
  have hv2 : lookupA stB.depth p = some v := hv
  obtain ⟨gp, l, h1, h2, h3, h4, h5⟩ := hGS p v hv2
  by_cases hp : p = pkg.importPath
  · subst hp
    have hgp : gp = pkg := by
      rw [h1] at hbacked
      injection hbacked
    have hl : l = ours := by
      rw [hgp] at h2
      rw [h2] at hro
      injection hro
    refine ⟨pkg, ours, hbacked, hro, ?_, ?_, ?_⟩
    · show lookupA (updateA stB.deps pkg.importPath ours) pkg.importPath = some ours
      exact lookupA_updateA_self stB.deps pkg.importPath ours
    · intro q hq
      exact h4 q (hl ▸ hq)
    · rw [listDepth_congr cfg stB (recordPkg stB pkg.importPath layer ours) ours rfl]
      rw [hl] at h5
      exact h5
  · refine ⟨gp, l, h1, h2, ?_, ?_, ?_⟩
    · show lookupA (updateA stB.deps pkg.importPath ours) p = some l
      rw [lookupA_updateA_ne stB.deps pkg.importPath p ours hp]
      exact h3
    · intro q hq
      exact h4 q hq
    · rw [listDepth_congr cfg stB (recordPkg stB pkg.importPath layer ours) l rfl]
      exact h5

theorem foldChildren_M1 (cfg : Config) (res : String → Option GoPackage) (r : String → Nat)
    (B : Nat) (f : GoPackage → ASt → ARes) (l : List GoPackage)
    (hql : ∀ q ∈ l, res q.importPath = some q ∧ r q.importPath < B)
    (hf : ∀ q ∈ l, ∀ s s2 dd,
      f q s = ARes.ok s2 dd →
      res q.importPath = some q →
      GoodDepth cfg res s → (∀ p, Broken s p → r q.importPath < r p) →
      PhaseInv s → DepsCanon cfg res s →
      GoodDepth cfg res s2 ∧
      (∀ p v, lookupA s.depth p = some v → lookupA s2.depth p = some v) ∧
      lookupA s2.depth q.importPath = some dd ∧
      (∀ p, Broken s2 p → Broken s p ∧ p ≠ q.importPath) ∧
      (∀ p l2, lookupA s.deps p = some l2 → lookupA s2.deps p = some l2) ∧
      PhaseInv s2 ∧ DepsCanon cfg res s2 ∧
      (∀ p w, lookupA s.depth p = none → lookupA s2.depth p = some w →
        r p ≤ r q.importPath)) :
    ∀ st acc st2 acc2, foldChildren f l st acc = ARes.ok st2 acc2 →
      GoodDepth cfg res st → (∀ p, Broken st p → B ≤ r p) →
      PhaseInv st → DepsCanon cfg res st →
      GoodDepth cfg res st2 ∧
      (∀ p v, lookupA st.depth p = some v → lookupA st2.depth p = some v) ∧
      (∀ p, Broken st2 p → Broken st p) ∧
      (∀ p l2, lookupA st.deps p = some l2 → lookupA st2.deps p = some l2) ∧
      PhaseInv st2 ∧ DepsCanon cfg res st2 ∧
      (∀ q ∈ l, ∃ w, lookupA st2.depth q.importPath = some w) ∧
      acc2 = List.foldl (fun a q =>
        if a < getD st2.depth q.importPath 0 then getD st2.depth q.importPath 0 else a)
        acc l ∧
      (∀ p w, lookupA st.depth p = none → lookupA st2.depth p = some w → r p < B) := by
  induction l with
  | nil =>
    intro st acc st2 acc2 h hGS hBk hPh hDC
    simp only [foldChildren] at h
    injection h with h1 h2
    subst h1
    subst h2
    refine ⟨hGS, fun p v hv => hv, fun p hp => hp, fun p l2 hl => hl, hPh, hDC,
      by simp, by simp, ?_⟩
    intro p w hn hs
    rw [hn] at hs
    exact Option.noConfusion hs
  | cons q qs ih =>
    intro st acc st2 acc2 h hGS hBk hPh hDC
    cases hq : f q st with
    | fuelOut =>
      simp only [foldChildren, hq] at h
      exact ARes.noConfusion h
    | fatal e =>
      simp only [foldChildren, hq] at h
      exact ARes.noConfusion h
    | ok s2 dd =>
      simp only [foldChildren, hq] at h
      have hqmem : q ∈ q :: qs := by simp
      have hBkq : ∀ p, Broken st p → r q.importPath < r p :=
        fun p hp => lt_of_lt_of_le (hql q hqmem).2 (hBk p hp)
      have hchild := hf q hqmem st s2 dd hq (hql q hqmem).1 hGS hBkq hPh hDC
      have hBks2 : ∀ p, Broken s2 p → B ≤ r p :=
        fun p hp => hBk p (hchild.2.2.2.1 p hp).1
      have ihres := ih (fun q2 hq2 => hql q2 (by simp [hq2]))
        (fun q2 hq2 => hf q2 (by simp [hq2])) s2 _ st2 acc2 h
        hchild.1 hBks2 hchild.2.2.2.2.2.1 hchild.2.2.2.2.2.2.1
      have hdd : lookupA st2.depth q.importPath = some dd :=
        ihres.2.1 q.importPath dd hchild.2.2.1
      refine ⟨ihres.1, ?_, ?_, ?_, ihres.2.2.2.2.1, ihres.2.2.2.2.2.1, ?_, ?_, ?_⟩
      · intro p v hv
        exact ihres.2.1 p v (hchild.2.1 p v hv)
      · intro p hp
        exact (hchild.2.2.2.1 p (ihres.2.2.1 p hp)).1
      · intro p l2 hl
        exact ihres.2.2.2.1 p l2 (hchild.2.2.2.2.1 p l2 hl)
      · intro q2 hq2
        rcases List.mem_cons.mp hq2 with hq2 | hq2
        · subst hq2
          exact ⟨dd, hdd⟩
        · exact ihres.2.2.2.2.2.2.1 q2 hq2
      · have haccrest := ihres.2.2.2.2.2.2.2.1
        have hgq : getD st2.depth q.importPath 0 = dd := by
          rw [getD, hdd]
          rfl
        simp only [List.foldl_cons]
        rw [hgq]
        exact haccrest
      · intro p w hn hs
        cases hs2 : lookupA s2.depth p with
        | some w2 =>
          exact lt_of_le_of_lt (hchild.2.2.2.2.2.2.2 p w2 hn hs2) (hql q hqmem).2
        | none =>
          exact ihres.2.2.2.2.2.2.2.2 p w hs2 hs

theorem map_congr_mem {α β : Type} (l : List α) (f g : α → β)
    (h : ∀ a ∈ l, f a = g a) : l.map f = l.map g := by
  induction l with
  | nil => rfl
  | cons a as ih =>
    simp only [List.map_cons]
    rw [h a (by simp), ih (fun b hb => h b (by simp [hb]))]

theorem expandStep_M1 (cfg : Config) (res : String → Option GoPackage) (r : String → Nat)
    (hRW : RWres res) (hrank : RankDec cfg res r)
    (f : GoPackage → ASt → ARes) (pkg : GoPackage) (layer : Nat) (stB st' : ASt) (d : Nat)
    (hf : ∀ q s s2 dd,
      f q s = ARes.ok s2 dd → res q.importPath = some q →
      GoodDepth cfg res s → (∀ p, Broken s p → r q.importPath < r p) →
      PhaseInv s → DepsCanon cfg res s →
      GoodDepth cfg res s2 ∧
      (∀ p v, lookupA s.depth p = some v → lookupA s2.depth p = some v) ∧
      lookupA s2.depth q.importPath = some dd ∧
      (∀ p, Broken s2 p → Broken s p ∧ p ≠ q.importPath) ∧
      (∀ p l2, lookupA s.deps p = some l2 → lookupA s2.deps p = some l2) ∧
      PhaseInv s2 ∧ DepsCanon cfg res s2 ∧
      (∀ p w, lookupA s.depth p = none → lookupA s2.depth p = some w →
        r p ≤ r q.importPath))
    (h : expandStep cfg res f pkg layer stB = ARes.ok st' d)
    (hbacked : res pkg.importPath = some pkg)
    (hGS : GoodDepth cfg res stB) (hBk : ∀ p, Broken stB p → r pkg.importPath < r p)
    (hPh : PhaseInv stB) (hDC : DepsCanon cfg res stB) :
    GoodDepth cfg res st' ∧
    (∀ p v, lookupA stB.depth p = some v → lookupA st'.depth p = some v) ∧
    lookupA st'.depth pkg.importPath = some d ∧
    (∀ p, Broken st' p → Broken stB p ∧ p ≠ pkg.importPath) ∧
    (∀ p l2, lookupA stB.deps p = some l2 → lookupA st'.deps p = some l2) ∧
    PhaseInv st' ∧ DepsCanon cfg res st' ∧
    (∀ p w, lookupA stB.depth p = none → lookupA st'.depth p = some w →
      r p ≤ r pkg.importPath) := by
  rcases expandStep_cases cfg res f pkg layer stB with ⟨e, hro, heq⟩ | ⟨ours, hro, hrest⟩
  · rw [heq] at h; exact ARes.noConfusion h
  · rcases hrest with ⟨hfold, heq⟩ | ⟨e, hfold, heq⟩ | ⟨st3, acc, hfold, heq⟩
    · rw [heq] at h; exact ARes.noConfusion h
    · rw [heq] at h; exact ARes.noConfusion h
    · rw [heq] at h
      injection h with h1 h2
      subst h1
      subst h2
      have hqlist : ∀ q ∈ ours, res q.importPath = some q ∧
          r q.importPath < r pkg.importPath := by
        intro q hq
        exact ⟨resolveOwned_backed cfg res hRW pkg.imports ours hro q hq,
          hrank pkg.importPath pkg ours q hbacked hro hq⟩
      have hoursne : ∀ q ∈ ours, q.importPath ≠ pkg.importPath := by
        intro q hq heq2
        have hlt := (hqlist q hq).2
        rw [heq2] at hlt
        omega
      have hGSR : GoodDepth cfg res (recordPkg stB pkg.importPath layer ours) :=
        goodDepth_record cfg res stB pkg layer ours hbacked hro hGS
      have hBkR : ∀ p, Broken (recordPkg stB pkg.importPath layer ours) p →
          r pkg.importPath ≤ r p := by
        intro p hp
        rcases broken_record stB pkg.importPath layer ours p hp with hb | hb
        · exact le_of_lt (hBk p hb)
        · rw [hb]
      have hPhR : PhaseInv (recordPkg stB pkg.importPath layer ours) := by
        intro p hp
        by_cases hpp : p = pkg.importPath
        · subst hpp
          show lookupA (updateA stB.layerPos pkg.importPath layer) pkg.importPath ≠ none
          rw [lookupA_updateA_self]
          simp
        · show lookupA (updateA stB.layerPos pkg.importPath layer) p ≠ none
          rw [lookupA_updateA_ne stB.layerPos pkg.importPath p layer hpp]
          apply hPh p
          have hp2 : lookupA (updateA stB.deps pkg.importPath ours) p ≠ none := hp
          rw [lookupA_updateA_ne stB.deps pkg.importPath p ours hpp] at hp2
          exact hp2
      have hDCR : DepsCanon cfg res (recordPkg stB pkg.importPath layer ours) := by
        intro p l2 hl
        by_cases hpp : p = pkg.importPath
        · subst hpp
          have hl2 : lookupA (updateA stB.deps pkg.importPath ours) pkg.importPath =
              some l2 := hl
          rw [lookupA_updateA_self] at hl2
          injection hl2 with hll
          rw [← hll]
          exact ⟨pkg, hbacked, hro⟩
        · have hl2 : lookupA (updateA stB.deps pkg.importPath ours) p = some l2 := hl
          rw [lookupA_updateA_ne stB.deps pkg.importPath p ours hpp] at hl2
          exact hDC p l2 hl2
      obtain ⟨hGS3, hstab3, hBr3, hdstab3, hPh3, hDC3, hpres3, haccEq, hnew3⟩ :=
        foldChildren_M1 cfg res r (r pkg.importPath) f ours hqlist (fun q _ => hf q)
          (recordPkg stB pkg.importPath layer ours) 0 st3 acc hfold hGSR hBkR hPhR hDCR
      have hstabB3 : ∀ p v, lookupA stB.depth p = some v →
          lookupA st3.depth p = some v := hstab3
      have haccmax : acc = maxOf (ours.map (fun q => getD st3.depth q.importPath 0)) := by
        rw [haccEq, foldl_max_eq]
        simp
      have hourDepth3 : (if ours.isEmpty then acc else acc + 1) = listDepth st3 ours := by
        rw [listDepth]
        by_cases he : ours.isEmpty
        · rw [if_pos he, if_pos he]
          have hnil : ours = [] := by
            cases ours with
            | nil => rfl
            | cons a as => simp [List.isEmpty] at he
          rw [hnil] at haccmax
          simpa [maxOf] using haccmax
        · rw [if_neg he, if_neg he, haccmax]
          omega
      have hdeps3path : lookupA st3.deps pkg.importPath = some ours :=
        hdstab3 pkg.importPath ours (lookupA_updateA_self stB.deps pkg.importPath ours)
      have hDeqAll : ∀ v, lookupA stB.depth pkg.importPath = some v →
          (if ours.isEmpty then acc else acc + 1) = v := by
        intro vold hvold
        obtain ⟨gp, l_old, hR1, hR2, hR3, hR4, hR5⟩ := hGS pkg.importPath vold hvold
        have hgp : gp = pkg := by
          rw [hR1] at hbacked
          injection hbacked
        have hlold : l_old = ours := by
          rw [hgp] at hR2
          rw [hR2] at hro
          injection hro
        have hptwise : ∀ q ∈ ours,
            getD st3.depth q.importPath 0 = getD stB.depth q.importPath 0 := by
          intro q hq
          have hq4 : lookupA stB.depth q.importPath ≠ none := hR4 q (hlold ▸ hq)
          cases hqd : lookupA stB.depth q.importPath with
          | none => exact absurd hqd hq4
          | some w => rw [getD, getD, hqd, hstabB3 q.importPath w hqd]
        have hmapeq := map_congr_mem ours _ _ hptwise
        rw [hourDepth3]
        have hld : listDepth st3 ours = listDepth stB ours := by
          rw [listDepth, listDepth, hmapeq]
        rw [hld, ← hlold]
        exact hR5.symm
      have hNone3 : lookupA stB.depth pkg.importPath = none →
          lookupA st3.depth pkg.importPath = none := by
        intro hn
        cases hc : lookupA st3.depth pkg.importPath with
        | none => rfl
        | some w =>
          have := hnew3 pkg.importPath w hn hc
          omega
      refine ⟨?_, ?_, ?_, ?_, ?_, ?_, ?_, ?_⟩
      · -- GoodDepth of the final state
        intro p v hv
        by_cases hpp : p = pkg.importPath
        · subst hpp
          have hv2 : lookupA (updateA st3.depth pkg.importPath
              (if ours.isEmpty then acc else acc + 1)) pkg.importPath = some v := hv
          rw [lookupA_updateA_self] at hv2
          injection hv2 with hveq
          refine ⟨pkg, ours, hbacked, hro, hdeps3path, ?_, ?_⟩
          · intro q hq
            obtain ⟨w, hw⟩ := hpres3 q hq
            show lookupA (updateA st3.depth pkg.importPath
              (if ours.isEmpty then acc else acc + 1)) q.importPath ≠ none
            rw [lookupA_updateA_ne st3.depth pkg.importPath q.importPath _ (hoursne q hq), hw]
            simp
          · have hptwise : ∀ q ∈ ours,
                getD (finishPkg st3 pkg.importPath
                  (if ours.isEmpty then acc else acc + 1)).depth q.importPath 0 =
                getD st3.depth q.importPath 0 := by
              intro q hq
              show getD (updateA st3.depth pkg.importPath _) q.importPath 0 = _
              rw [getD, getD,
                lookupA_updateA_ne st3.depth pkg.importPath q.importPath _ (hoursne q hq)]
            have hld : listDepth (finishPkg st3 pkg.importPath
                (if ours.isEmpty then acc else acc + 1)) ours = listDepth st3 ours := by
              rw [listDepth, listDepth, map_congr_mem ours _ _ hptwise]
            rw [← hveq, hld]
            exact hourDepth3
        · have hv2 : lookupA (updateA st3.depth pkg.importPath
              (if ours.isEmpty then acc else acc + 1)) p = some v := hv
          rw [lookupA_updateA_ne st3.depth pkg.importPath p _ hpp] at hv2
          obtain ⟨gp, l_p, k1, k2, k3, k4, k5⟩ := hGS3 p v hv2
          refine ⟨gp, l_p, k1, k2, k3, ?_, ?_⟩
          · intro q hq
            by_cases hqp : q.importPath = pkg.importPath
            · show lookupA (updateA st3.depth pkg.importPath
                (if ours.isEmpty then acc else acc + 1)) q.importPath ≠ none
              rw [hqp, lookupA_updateA_self]
              simp
            · show lookupA (updateA st3.depth pkg.importPath
                (if ours.isEmpty then acc else acc + 1)) q.importPath ≠ none
              rw [lookupA_updateA_ne st3.depth pkg.importPath q.importPath _ hqp]
              exact k4 q hq
          · have hptwise : ∀ q ∈ l_p,
                getD (finishPkg st3 pkg.importPath
                  (if ours.isEmpty then acc else acc + 1)).depth q.importPath 0 =
                getD st3.depth q.importPath 0 := by
              intro q hq
              by_cases hqp : q.importPath = pkg.importPath
              · cases hpathdep : lookupA stB.depth pkg.importPath with
                | none =>
                  have h3n := hNone3 hpathdep
                  rw [← hqp] at h3n
                  exact absurd h3n (k4 q hq)
                | some vold =>
                  have h3v : lookupA st3.depth pkg.importPath = some vold :=
                    hstabB3 pkg.importPath vold hpathdep
                  show getD (updateA st3.depth pkg.importPath _) q.importPath 0 = _
                  rw [hqp, getD, getD, lookupA_updateA_self, h3v,
                    hDeqAll vold hpathdep]
              · show getD (updateA st3.depth pkg.importPath _) q.importPath 0 = _
                rw [getD, getD,
                  lookupA_updateA_ne st3.depth pkg.importPath q.importPath _ hqp]
            have hld : listDepth (finishPkg st3 pkg.importPath
                (if ours.isEmpty then acc else acc + 1)) l_p = listDepth st3 l_p := by
              rw [listDepth, listDepth, map_congr_mem l_p _ _ hptwise]
            rw [hld]
            exact k5
      · -- depth entries of the entry state keep their values
        intro p v hv
        by_cases hpp : p = pkg.importPath
        · subst hpp
          show lookupA (updateA st3.depth pkg.importPath
            (if ours.isEmpty then acc else acc + 1)) pkg.importPath = some v
          rw [lookupA_updateA_self, hDeqAll v hv]
        · show lookupA (updateA st3.depth pkg.importPath
            (if ours.isEmpty then acc else acc + 1)) p = some v
          rw [lookupA_updateA_ne st3.depth pkg.importPath p _ hpp]
          exact hstabB3 p v hv
      · -- the returned depth is recorded for this package
        show lookupA (updateA st3.depth pkg.importPath
          (if ours.isEmpty then acc else acc + 1)) pkg.importPath = some _
        rw [lookupA_updateA_self]
      · -- Broken entries only shrink, and this package is fixed
        intro p hp
        obtain ⟨hp1, hp2⟩ := hp
        have hpne : p ≠ pkg.importPath := by
          intro he
          subst he
          have hself : lookupA (updateA st3.depth pkg.importPath
              (if ours.isEmpty then acc else acc + 1)) pkg.importPath =
              some (if ours.isEmpty then acc else acc + 1) :=
            lookupA_updateA_self st3.depth pkg.importPath _
          rw [show (finishPkg st3 pkg.importPath
              (if ours.isEmpty then acc else acc + 1)).depth =
            updateA st3.depth pkg.importPath (if ours.isEmpty then acc else acc + 1)
            from rfl] at hp2
          rw [hself] at hp2
          exact Option.noConfusion hp2
        have hp2b : lookupA st3.depth p = none := by
          rw [show (finishPkg st3 pkg.importPath
              (if ours.isEmpty then acc else acc + 1)).depth =
            updateA st3.depth pkg.importPath (if ours.isEmpty then acc else acc + 1)
            from rfl, lookupA_updateA_ne st3.depth pkg.importPath p _ hpne] at hp2
          exact hp2
        have hbr3 : Broken st3 p := ⟨hp1, hp2b⟩
        have hbrR := hBr3 p hbr3
        rcases broken_record stB pkg.importPath layer ours p hbrR with hb | hb
        · exact ⟨hb, hpne⟩
        · exact absurd hb hpne
      · -- deps entries of the entry state keep their values
        intro p l2 hl
        by_cases hpp : p = pkg.importPath
        · subst hpp
          obtain ⟨gp, hres, hroOld⟩ := hDC pkg.importPath l2 hl
          have hgp : gp = pkg := by
            rw [hres] at hbacked
            injection hbacked
          have hl2 : l2 = ours := by
            rw [hgp] at hroOld
            rw [hroOld] at hro
            injection hro
          show lookupA st3.deps pkg.importPath = some l2
          rw [hl2]
          exact hdeps3path
        · show lookupA st3.deps p = some l2
          apply hdstab3 p l2
          show lookupA (updateA stB.deps pkg.importPath ours) p = some l2
          rw [lookupA_updateA_ne stB.deps pkg.importPath p ours hpp]
          exact hl
      · -- deps entries still have recorded layers
        intro p hp
        exact hPh3 p hp
      · -- deps entries are still canonical
        intro p l2 hl
        exact hDC3 p l2 hl
      · -- any newly recorded depth belongs to a package of rank at most this one
        intro p w hn hs
        by_cases hpp : p = pkg.importPath
        · rw [hpp]
        · have hs2 : lookupA st3.depth p = some w := by
            have hs3 : lookupA (updateA st3.depth pkg.importPath
                (if ours.isEmpty then acc else acc + 1)) p = some w := hs
            rw [lookupA_updateA_ne st3.depth pkg.importPath p _ hpp] at hs3
            exact hs3
          exact le_of_lt (hnew3 p w hn hs2)

theorem analyze_M1 (cfg : Config) (res : String → Option GoPackage) (r : String → Nat)
    (hRW : RWres res) (hrank : RankDec cfg res r) :
    ∀ fuel pkg layer st0 st' d,
      analyze cfg res fuel pkg layer st0 = ARes.ok st' d →
      res pkg.importPath = some pkg →
      GoodDepth cfg res st0 → (∀ p, Broken st0 p → r pkg.importPath < r p) →
      PhaseInv st0 → DepsCanon cfg res st0 →
      GoodDepth cfg res st' ∧
      (∀ p v, lookupA st0.depth p = some v → lookupA st'.depth p = some v) ∧
      lookupA st'.depth pkg.importPath = some d ∧
      (∀ p, Broken st' p → Broken st0 p ∧ p ≠ pkg.importPath) ∧
      (∀ p l2, lookupA st0.deps p = some l2 → lookupA st'.deps p = some l2) ∧
      PhaseInv st' ∧ DepsCanon cfg res st' ∧
      (∀ p w, lookupA st0.depth p = none → lookupA st'.depth p = some w →
        r p ≤ r pkg.importPath) := by
  intro fuel
  induction fuel with
  | zero =>
    intro pkg layer st0 st' d h hbacked hGS hBk hPh hDC
    exact ARes.noConfusion h
  | succ fuel ih =>
    intro pkg layer st0 st' d h hbacked hGS hBk hPh hDC
    have hGSb : GoodDepth cfg res (bumpLayer st0 layer) :=
      goodDepth_of_eq cfg res st0 (bumpLayer st0 layer) (bumpLayer_depth st0 layer)
        (bumpLayer_deps st0 layer) hGS
    have hBkb : ∀ p, Broken (bumpLayer st0 layer) p → r pkg.importPath < r p :=
      fun p hp => hBk p ((broken_bump st0 layer p).mp hp)
    have hPhb : PhaseInv (bumpLayer st0 layer) :=
      phaseInv_of_eq st0 (bumpLayer st0 layer) (bumpLayer_layerPos st0 layer)
        (bumpLayer_deps st0 layer) hPh
    have hDCb : DepsCanon cfg res (bumpLayer st0 layer) :=
      depsCanon_of_eq cfg res st0 (bumpLayer st0 layer) (bumpLayer_deps st0 layer) hDC
    cases hl : lookupA (bumpLayer st0 layer).layerPos pkg.importPath with
    | some val =>
      by_cases hle : layer ≤ val
      · rw [analyze_memo cfg res fuel pkg layer st0 val hl hle] at h
        injection h with h1 h2
        subst h1
        subst h2
        have hnb : ¬ Broken st0 pkg.importPath := by
          intro hb
          have := hBk pkg.importPath hb
          omega
        have hlay0 : lookupA st0.layerPos pkg.importPath = some val := by
          rw [← bumpLayer_layerPos st0 layer]
          exact hl
        have hdep : ∃ v, lookupA st0.depth pkg.importPath = some v := by
          cases hd : lookupA st0.depth pkg.importPath with
          | none => exact absurd ⟨by rw [hlay0]; simp, hd⟩ hnb
          | some v => exact ⟨v, rfl⟩
        obtain ⟨v, hv⟩ := hdep
        have hd2 : getD (bumpLayer st0 layer).depth pkg.importPath 0 = v := by
          rw [getD, bumpLayer_depth, hv]
          rfl
        refine ⟨hGSb, ?_, ?_, ?_, ?_, hPhb, hDCb, ?_⟩
        · intro p v2 hv2
          rw [bumpLayer_depth]
          exact hv2
        · rw [hd2, bumpLayer_depth]
          exact hv
        · intro p hp
          have hp0 := (broken_bump st0 layer p).mp hp
          refine ⟨hp0, ?_⟩
          intro he
          subst he
          exact hnb hp0
        · intro p l2 hl2
          rw [bumpLayer_deps]
          exact hl2
        · intro p w hn hs
          rw [bumpLayer_depth, hn] at hs
          exact Option.noConfusion hs
      · rw [analyze_expand_deeper cfg res fuel pkg layer st0 val hl (Nat.not_le.mp hle)] at h
        have hres := expandStep_M1 cfg res r hRW hrank _ pkg layer (bumpLayer st0 layer) st' d
          (fun q s s2 dd hfq hb hg hbk2 hph hdc =>
            ih q (layer + 1) s s2 dd hfq hb hg hbk2 hph hdc)
          h hbacked hGSb hBkb hPhb hDCb
        obtain ⟨c1, c2, c3, c4, c5, c6, c7, c8⟩ := hres
        refine ⟨c1, ?_, c3, ?_, ?_, c6, c7, ?_⟩
        · intro p v hv
          exact c2 p v (by rw [bumpLayer_depth]; exact hv)
        · intro p hp
          have hc := c4 p hp
          exact ⟨(broken_bump st0 layer p).mp hc.1, hc.2⟩
        · intro p l2 hl2
          exact c5 p l2 (by rw [bumpLayer_deps]; exact hl2)
        · intro p w hn hs
          exact c8 p w (by rw [bumpLayer_depth]; exact hn) hs
    | none =>
      rw [analyze_expand_new cfg res fuel pkg layer st0 hl] at h
      have hres := expandStep_M1 cfg res r hRW hrank _ pkg layer (bumpLayer st0 layer) st' d
        (fun q s s2 dd hfq hb hg hbk2 hph hdc =>
          ih q (layer + 1) s s2 dd hfq hb hg hbk2 hph hdc)
        h hbacked hGSb hBkb hPhb hDCb
      obtain ⟨c1, c2, c3, c4, c5, c6, c7, c8⟩ := hres
      refine ⟨c1, ?_, c3, ?_, ?_, c6, c7, ?_⟩
      · intro p v hv
        exact c2 p v (by rw [bumpLayer_depth]; exact hv)
      · intro p hp
        have hc := c4 p hp
        exact ⟨(broken_bump st0 layer p).mp hc.1, hc.2⟩
      · intro p l2 hl2
        exact c5 p l2 (by rw [bumpLayer_deps]; exact hl2)
      · intro p w hn hs
        exact c8 p w (by rw [bumpLayer_depth]; exact hn) hs

theorem goodDepth_init (cfg : Config) (res : String → Option GoPackage) :
    GoodDepth cfg res initSt := by
  intro p v hv
  simp [initSt, lookupA] at hv

theorem broken_init (p : String) : ¬ Broken initSt p := by
  intro h
  exact h.1 rfl

theorem phaseInv_init : PhaseInv initSt := by
  intro p hp
  exact absurd rfl hp

theorem depsCanon_init (cfg : Config) (res : String → Option GoPackage) :
    DepsCanon cfg res initSt := by
  intro p l hl
  simp [initSt, lookupA] at hl

/-! ### C5: the depth index semantics and the chain scenario -/

/-- C5: after a completed traversal of an acyclic universe, every recorded
depth equals 0 for a package with no owned dependencies and 1 plus the
maximum recorded depth of its owned dependencies otherwise; in particular
the chain r → a → b yields depth {r:2, a:1, b:0} and layers {r:0, a:1, b:2}. -/
theorem c5_depth_semantics :
    (∀ (cfg : Config) (res : String → Option GoPackage) (r : String → Nat)
      (fuel : Nat) (rpkg : GoPackage) (st : ASt) (d : Nat),
      RWres res → RankDec cfg res r → res cfg.rootPackage = some rpkg →
      analyze cfg res fuel rpkg 0 initSt = ARes.ok st d →
      ∀ p v, lookupA st.depth p = some v →
        ∃ l, lookupA st.deps p = some l ∧
          ((l = [] ∧ v = 0) ∨
            (l ≠ [] ∧ v = 1 + maxOf (l.map (fun q => getD st.depth q.importPath 0))))) ∧
    (depthOf chainRun ("r") = some 2 ∧ depthOf chainRun ("a") = some 1 ∧
      depthOf chainRun ("b") = some 0 ∧ layerOf chainRun ("r") = some 0 ∧
      layerOf chainRun ("a") = some 1 ∧ layerOf chainRun ("b") = some 2) := by
  constructor
  · intro cfg res r fuel rpkg st d hRW hrank hroot hrun p v hv
    have hbacked : res rpkg.importPath = some rpkg := by
      rw [hRW cfg.rootPackage rpkg hroot]
      exact hroot
    have hM1 := analyze_M1 cfg res r hRW hrank fuel rpkg 0 initSt st d hrun hbacked
      (goodDepth_init cfg res) (fun p2 hp2 => absurd hp2 (broken_init p2))
      phaseInv_init (depsCanon_init cfg res)
    obtain ⟨gp, l, _, _, h3, _, h5⟩ := hM1.1 p v hv
    refine ⟨l, h3, ?_⟩
    cases l with
    | nil =>
      left
      refine ⟨rfl, ?_⟩
      rw [h5]
      rfl
    | cons q qs =>
      right
      refine ⟨by simp, ?_⟩
      rw [h5]
      rfl
  · refine ⟨by decide, by decide, by decide, by decide, by decide, by decide⟩

/-- Witness for C5: the general depth law applied to package a of the
completed chain traversal. -/
theorem c5_depth_semantics_witness :
    ∃ l, lookupA chainFinalSt.deps ("a") = some l ∧
      ((l = [] ∧ 1 = 0) ∨
        (l ≠ [] ∧ 1 = 1 + maxOf (l.map (fun q => getD chainFinalSt.depth q.importPath 0)))) :=
  c5_depth_semantics.1 chainCfg (mkRes chainUL) chainRank 10 chainRoot chainFinalSt 2
    (RWres_of_list chainUL (by decide))
    (RankDec_of_list chainCfg chainUL chainRank (by decide))
    (by decide) (by decide) ("a") 1 (by decide)

/-! ### Layer coherence: helper lemmas -/

theorem lgood_of_eq (cfg : Config) (res : String → Option GoPackage) (st st2 : ASt)
    (hlay : st2.layerPos = st.layerPos) (hdeps : st2.deps = st.deps) (p : String)
    (h : LGood cfg res st p) : LGood cfg res st2 p := by
  intro Lp hLp
  rw [hlay] at hLp
  obtain ⟨gp, l, h1, h2, h3, h4⟩ := h Lp hLp
  refine ⟨gp, l, h1, h2, by rw [hdeps]; exact h3, ?_⟩
  intro q hq
  obtain ⟨Lq, hq1, hq2⟩ := h4 q hq
  exact ⟨Lq, by rw [hlay]; exact hq1, hq2⟩

theorem realized_of_eq (cfg : Config) (res : String → Option GoPackage) (root : String)
    (st st2 : ASt) (hlay : st2.layerPos = st.layerPos)
    (h : Realized cfg res root st) : Realized cfg res root st2 := by
  intro p L hL
  rw [hlay] at hL
  exact h p L hL

/-- LGood survives the recording of another package at a strictly deeper
layer than its previously recorded one. -/
theorem lgood_record (cfg : Config) (res : String → Option GoPackage) (stB : ASt)
    (pkg : GoPackage) (layer : Nat) (ours : List GoPackage)
    (hexp : ∀ val, lookupA stB.layerPos pkg.importPath = some val → val < layer)
    (p : String) (hp : p ≠ pkg.importPath) (h : LGood cfg res stB p) :
    LGood cfg res (recordPkg stB pkg.importPath layer ours) p := by
  intro Lp hLp
  have hLp2 : lookupA stB.layerPos p = some Lp := by
    have hx : lookupA (updateA stB.layerPos pkg.importPath layer) p = some Lp := hLp
    rw [lookupA_updateA_ne stB.layerPos pkg.importPath p layer hp] at hx
    exact hx
  obtain ⟨gp, l, h1, h2, h3, h4⟩ := h Lp hLp2
  refine ⟨gp, l, h1, h2, ?_, ?_⟩
  · show lookupA (updateA stB.deps pkg.importPath ours) p = some l
    rw [lookupA_updateA_ne stB.deps pkg.importPath p ours hp]
    exact h3
  · intro q hq
    obtain ⟨Lq, hq1, hq2⟩ := h4 q hq
    by_cases hqp : q.importPath = pkg.importPath
    · have hlt : Lq < layer := hexp Lq (by rw [← hqp]; exact hq1)
      refine ⟨layer, ?_, by omega⟩
      show lookupA (updateA stB.layerPos pkg.importPath layer) q.importPath = some layer
      rw [hqp]
      exact lookupA_updateA_self stB.layerPos pkg.importPath layer
    · refine ⟨Lq, ?_, hq2⟩
      show lookupA (updateA stB.layerPos pkg.importPath layer) q.importPath = some Lq
      rw [lookupA_updateA_ne stB.layerPos pkg.importPath q.importPath layer hqp]
      exact hq1

theorem foldChildren_M2 (cfg : Config) (res : String → Option GoPackage) (r : String → Nat)
    (root : String) (B : Nat) (f : GoPackage → ASt → ARes) (cl : Nat) (l : List GoPackage)
    (hql : ∀ q ∈ l, res q.importPath = some q ∧ r q.importPath < B ∧
      Reach cfg res root cl q.importPath)
    (hf : ∀ q ∈ l, ∀ s s2 dd,
      f q s = ARes.ok s2 dd → res q.importPath = some q →
      Reach cfg res root cl q.importPath →
      (∀ p, ¬ LGood cfg res s p → r q.importPath < r p) →
      Realized cfg res root s → DepsCanon cfg res s →
      (∀ p, ¬ LGood cfg res s2 p → (¬ LGood cfg res s p ∧ p ≠ q.importPath)) ∧
      (∀ p v, lookupA s.layerPos p = some v →
        ∃ v2, lookupA s2.layerPos p = some v2 ∧ v ≤ v2) ∧
      (∃ v, lookupA s2.layerPos q.importPath = some v ∧ cl ≤ v) ∧
      Realized cfg res root s2 ∧
      (∀ p l2, lookupA s.deps p = some l2 → lookupA s2.deps p = some l2) ∧
      DepsCanon cfg res s2 ∧
      (∀ p, r q.importPath < r p → lookupA s2.layerPos p = lookupA s.layerPos p)) :
    ∀ st acc st2 acc2, foldChildren f l st acc = ARes.ok st2 acc2 →
      (∀ p, ¬ LGood cfg res st p → B ≤ r p) →
      Realized cfg res root st → DepsCanon cfg res st →
      (∀ p, ¬ LGood cfg res st2 p → ¬ LGood cfg res st p) ∧
      (∀ p v, lookupA st.layerPos p = some v →
        ∃ v2, lookupA st2.layerPos p = some v2 ∧ v ≤ v2) ∧
      (∀ q ∈ l, ∃ v, lookupA st2.layerPos q.importPath = some v ∧ cl ≤ v) ∧
      Realized cfg res root st2 ∧
      (∀ p l2, lookupA st.deps p = some l2 → lookupA st2.deps p = some l2) ∧
      DepsCanon cfg res st2 ∧
      (∀ p, B ≤ r p → lookupA st2.layerPos p = lookupA st.layerPos p) := by
  induction l with
  | nil =>
    intro st acc st2 acc2 h hLG hReal hDC
    simp only [foldChildren] at h
    injection h with h1 h2
    subst h1
    exact ⟨fun p hp => hp, fun p v hv => ⟨v, hv, le_refl v⟩, by simp, hReal,
      fun p l2 hl => hl, hDC, fun p _ => rfl⟩
  | cons q qs ih =>
    intro st acc st2 acc2 h hLG hReal hDC
    cases hq : f q st with
    | fuelOut =>
      simp only [foldChildren, hq] at h
      exact ARes.noConfusion h
    | fatal e =>
      simp only [foldChildren, hq] at h
      exact ARes.noConfusion h
    | ok s2 dd =>
      simp only [foldChildren, hq] at h
      have hqmem : q ∈ q :: qs := by simp
      have hLGq : ∀ p, ¬ LGood cfg res st p → r q.importPath < r p :=
        fun p hp => lt_of_lt_of_le (hql q hqmem).2.1 (hLG p hp)
      have hchild := hf q hqmem st s2 dd hq (hql q hqmem).1 (hql q hqmem).2.2 hLGq hReal hDC
      have hLGs2 : ∀ p, ¬ LGood cfg res s2 p → B ≤ r p :=
        fun p hp => hLG p (hchild.1 p hp).1
      have ihres := ih (fun q2 hq2 => hql q2 (by simp [hq2]))
        (fun q2 hq2 => hf q2 (by simp [hq2])) s2 _ st2 acc2 h hLGs2
        hchild.2.2.2.1 hchild.2.2.2.2.2.1
      refine ⟨?_, ?_, ?_, ihres.2.2.2.1, ?_, ihres.2.2.2.2.2.1, ?_⟩
      · intro p hp
        exact (hchild.1 p (ihres.1 p hp)).1
      · intro p v hv
        obtain ⟨v2, hv2, hle2⟩ := hchild.2.1 p v hv
        obtain ⟨v3, hv3, hle3⟩ := ihres.2.1 p v2 hv2
        exact ⟨v3, hv3, le_trans hle2 hle3⟩
      · intro q2 hq2
        rcases List.mem_cons.mp hq2 with hq2 | hq2
        · subst hq2
          obtain ⟨v, hv, hle⟩ := hchild.2.2.1
          obtain ⟨v2, hv2, hle2⟩ := ihres.2.1 q2.importPath v hv
          exact ⟨v2, hv2, le_trans hle hle2⟩
        · exact ihres.2.2.1 q2 hq2
      · intro p l2 hl
        exact ihres.2.2.2.2.1 p l2 (hchild.2.2.2.2.1 p l2 hl)
      · intro p hB
        have h1 := hchild.2.2.2.2.2.2 p (lt_of_lt_of_le (hql q hqmem).2.1 hB)
        have h2 := ihres.2.2.2.2.2.2 p hB
        rw [h2, h1]

theorem expandStep_M2 (cfg : Config) (res : String → Option GoPackage) (r : String → Nat)
    (root : String) (hRW : RWres res) (hrank : RankDec cfg res r)
    (f : GoPackage → ASt → ARes) (pkg : GoPackage) (layer : Nat) (stB st' : ASt) (d : Nat)
    (hf : ∀ q s s2 dd,
      f q s = ARes.ok s2 dd → res q.importPath = some q →
      Reach cfg res root (layer + 1) q.importPath →
      (∀ p, ¬ LGood cfg res s p → r q.importPath < r p) →
      Realized cfg res root s → DepsCanon cfg res s →
      (∀ p, ¬ LGood cfg res s2 p → (¬ LGood cfg res s p ∧ p ≠ q.importPath)) ∧
      (∀ p v, lookupA s.layerPos p = some v →
        ∃ v2, lookupA s2.layerPos p = some v2 ∧ v ≤ v2) ∧
      (∃ v, lookupA s2.layerPos q.importPath = some v ∧ layer + 1 ≤ v) ∧
      Realized cfg res root s2 ∧
      (∀ p l2, lookupA s.deps p = some l2 → lookupA s2.deps p = some l2) ∧
      DepsCanon cfg res s2 ∧
      (∀ p, r q.importPath < r p → lookupA s2.layerPos p = lookupA s.layerPos p))
    (h : expandStep cfg res f pkg layer stB = ARes.ok st' d)
    (hbacked : res pkg.importPath = some pkg)
    (hreach : Reach cfg res root layer pkg.importPath)
    (hLG : ∀ p, ¬ LGood cfg res stB p → r pkg.importPath < r p)
    (hReal : Realized cfg res root stB) (hDC : DepsCanon cfg res stB)
    (hexp : ∀ val, lookupA stB.layerPos pkg.importPath = some val → val < layer) :
    (∀ p, ¬ LGood cfg res st' p → (¬ LGood cfg res stB p ∧ p ≠ pkg.importPath)) ∧
    (∀ p v, lookupA stB.layerPos p = some v →
      ∃ v2, lookupA st'.layerPos p = some v2 ∧ v ≤ v2) ∧
    (∃ v, lookupA st'.layerPos pkg.importPath = some v ∧ layer ≤ v) ∧
    Realized cfg res root st' ∧
    (∀ p l2, lookupA stB.deps p = some l2 → lookupA st'.deps p = some l2) ∧
    DepsCanon cfg res st' ∧
    (∀ p, r pkg.importPath < r p → lookupA st'.layerPos p = lookupA stB.layerPos p) := by
  rcases expandStep_cases cfg res f pkg layer stB with ⟨e, hro, heq⟩ | ⟨ours, hro, hrest⟩
  · rw [heq] at h; exact ARes.noConfusion h
  · rcases hrest with ⟨hfold, heq⟩ | ⟨e, hfold, heq⟩ | ⟨st3, acc, hfold, heq⟩
    · rw [heq] at h; exact ARes.noConfusion h
    · rw [heq] at h; exact ARes.noConfusion h
    · rw [heq] at h
      injection h with h1 h2
      subst h1
      subst h2
      have hqlist : ∀ q ∈ ours, res q.importPath = some q ∧
          r q.importPath < r pkg.importPath ∧
          Reach cfg res root (layer + 1) q.importPath := by
        intro q hq
        refine ⟨resolveOwned_backed cfg res hRW pkg.imports ours hro q hq,
          hrank pkg.importPath pkg ours q hbacked hro hq,
          Reach.step layer pkg.importPath q.importPath hreach ?_⟩
        exact ⟨pkg, ours, hbacked, hro, List.mem_map_of_mem _ hq⟩
      have hLGstR : ∀ p, ¬ LGood cfg res (recordPkg stB pkg.importPath layer ours) p →
          r pkg.importPath ≤ r p := by
        intro p hp
        by_cases hpp : p = pkg.importPath
        · rw [hpp]
        · by_cases hgood : LGood cfg res stB p
          · exact absurd (lgood_record cfg res stB pkg layer ours hexp p hpp hgood) hp
          · exact le_of_lt (hLG p hgood)
      have hRealR : Realized cfg res root (recordPkg stB pkg.importPath layer ours) := by
        intro p L hL
        by_cases hpp : p = pkg.importPath
        · subst hpp
          have hL2 : lookupA (updateA stB.layerPos pkg.importPath layer) pkg.importPath =
              some L := hL
          rw [lookupA_updateA_self] at hL2
          injection hL2 with hLe
          rw [← hLe]
          exact hreach
        · have hL2 : lookupA (updateA stB.layerPos pkg.importPath layer) p = some L := hL
          rw [lookupA_updateA_ne stB.layerPos pkg.importPath p layer hpp] at hL2
          exact hReal p L hL2
      have hDCR : DepsCanon cfg res (recordPkg stB pkg.importPath layer ours) := by
        intro p l2 hl
        by_cases hpp : p = pkg.importPath
        · subst hpp
          have hl2 : lookupA (updateA stB.deps pkg.importPath ours) pkg.importPath =
              some l2 := hl
          rw [lookupA_updateA_self] at hl2
          injection hl2 with hll
          rw [← hll]
          exact ⟨pkg, hbacked, hro⟩
        · have hl2 : lookupA (updateA stB.deps pkg.importPath ours) p = some l2 := hl
          rw [lookupA_updateA_ne stB.deps pkg.importPath p ours hpp] at hl2
          exact hDC p l2 hl2
      obtain ⟨g1, g2, g3, g4, g5, g6, g7⟩ :=
        foldChildren_M2 cfg res r root (r pkg.importPath) f (layer + 1) ours hqlist
          (fun q _ => hf q) (recordPkg stB pkg.importPath layer ours) 0 st3 acc hfold
          hLGstR hRealR hDCR
      have hlayst3pkg : lookupA st3.layerPos pkg.importPath = some layer := by
        rw [g7 pkg.importPath (le_refl _)]
        exact lookupA_updateA_self stB.layerPos pkg.importPath layer
      have hdeps3path : lookupA st3.deps pkg.importPath = some ours :=
        g5 pkg.importPath ours (lookupA_updateA_self stB.deps pkg.importPath ours)
      have hlgoodpkg : LGood cfg res st3 pkg.importPath := by
        intro Lp hLp
        rw [hlayst3pkg] at hLp
        injection hLp with hLe
        refine ⟨pkg, ours, hbacked, hro, hdeps3path, ?_⟩
        intro q hq
        obtain ⟨v, hv, hle⟩ := g3 q hq
        exact ⟨v, hv, by omega⟩
      refine ⟨?_, ?_, ?_, ?_, ?_, ?_, ?_⟩
      · intro p hp
        have hp3 : ¬ LGood cfg res st3 p := by
          intro hg
          exact hp (lgood_of_eq cfg res st3
            (finishPkg st3 pkg.importPath (if ours.isEmpty then acc else acc + 1))
            rfl rfl p hg)
        by_cases hpp : p = pkg.importPath
        · subst hpp
          exact absurd hlgoodpkg hp3
        · refine ⟨?_, hpp⟩
          intro hgood
          exact (g1 p hp3) (lgood_record cfg res stB pkg layer ours hexp p hpp hgood)
      · intro p v hv
        by_cases hpp : p = pkg.importPath
        · subst hpp
          have hlt := hexp v hv
          obtain ⟨v2, hv2, hle2⟩ := g2 pkg.importPath layer
            (lookupA_updateA_self stB.layerPos pkg.importPath layer)
          exact ⟨v2, hv2, by omega⟩
        · obtain ⟨v2, hv2, hle2⟩ := g2 p v (by
            show lookupA (updateA stB.layerPos pkg.importPath layer) p = some v
            rw [lookupA_updateA_ne stB.layerPos pkg.importPath p layer hpp]
            exact hv)
          exact ⟨v2, hv2, hle2⟩
      · exact ⟨layer, hlayst3pkg, le_refl layer⟩
      · exact realized_of_eq cfg res root st3 _ rfl g4
      · intro p l2 hl
        by_cases hpp : p = pkg.importPath
        · subst hpp
          obtain ⟨gp, hres, hroOld⟩ := hDC pkg.importPath l2 hl
          have hgp : gp = pkg := by
            rw [hres] at hbacked
            injection hbacked
          have hl2 : l2 = ours := by
            rw [hgp] at hroOld
            rw [hroOld] at hro
            injection hro
          show lookupA st3.deps pkg.importPath = some l2
          rw [hl2]
          exact hdeps3path
        · show lookupA st3.deps p = some l2
          apply g5 p l2
          show lookupA (updateA stB.deps pkg.importPath ours) p = some l2
          rw [lookupA_updateA_ne stB.deps pkg.importPath p ours hpp]
          exact hl
      · exact g6
      · intro p hrp
        have hne : p ≠ pkg.importPath := by
          intro he
          rw [he] at hrp
          omega
        show lookupA st3.layerPos p = lookupA stB.layerPos p
        rw [g7 p (le_of_lt hrp)]
        show lookupA (updateA stB.layerPos pkg.importPath layer) p = lookupA stB.layerPos p
        rw [lookupA_updateA_ne stB.layerPos pkg.importPath p layer hne]

theorem analyze_M2 (cfg : Config) (res : String → Option GoPackage) (r : String → Nat)
    (root : String) (hRW : RWres res) (hrank : RankDec cfg res r) :
    ∀ fuel pkg layer st0 st' d,
      analyze cfg res fuel pkg layer st0 = ARes.ok st' d →
      res pkg.importPath = some pkg →
      Reach cfg res root layer pkg.importPath →
      (∀ p, ¬ LGood cfg res st0 p → r pkg.importPath < r p) →
      Realized cfg res root st0 → DepsCanon cfg res st0 →
      (∀ p, ¬ LGood cfg res st' p → (¬ LGood cfg res st0 p ∧ p ≠ pkg.importPath)) ∧
      (∀ p v, lookupA st0.layerPos p = some v →
        ∃ v2, lookupA st'.layerPos p = some v2 ∧ v ≤ v2) ∧
      (∃ v, lookupA st'.layerPos pkg.importPath = some v ∧ layer ≤ v) ∧
      Realized cfg res root st' ∧
      (∀ p l2, lookupA st0.deps p = some l2 → lookupA st'.deps p = some l2) ∧
      DepsCanon cfg res st' ∧
      (∀ p, r pkg.importPath < r p → lookupA st'.layerPos p = lookupA st0.layerPos p) := by
  intro fuel
  induction fuel with
  | zero =>
    intro pkg layer st0 st' d h hbacked hreach hLG hReal hDC
    exact ARes.noConfusion h
  | succ fuel ih =>
    intro pkg layer st0 st' d h hbacked hreach hLG hReal hDC
    have hLGb : ∀ p, ¬ LGood cfg res (bumpLayer st0 layer) p → r pkg.importPath < r p := by
      intro p hp
      apply hLG p
      intro hg
      exact hp (lgood_of_eq cfg res st0 (bumpLayer st0 layer) (bumpLayer_layerPos st0 layer)
        (bumpLayer_deps st0 layer) p hg)
    have hRealb : Realized cfg res root (bumpLayer st0 layer) :=
      realized_of_eq cfg res root st0 (bumpLayer st0 layer) (bumpLayer_layerPos st0 layer)
        hReal
    have hDCb : DepsCanon cfg res (bumpLayer st0 layer) :=
      depsCanon_of_eq cfg res st0 (bumpLayer st0 layer) (bumpLayer_deps st0 layer) hDC
    cases hl : lookupA (bumpLayer st0 layer).layerPos pkg.importPath with
    | some val =>
      by_cases hle : layer ≤ val
      · rw [analyze_memo cfg res fuel pkg layer st0 val hl hle] at h
        injection h with h1 h2
        subst h1
        have hgoodpkg : LGood cfg res st0 pkg.importPath := by
          by_contra hg
          have := hLG pkg.importPath hg
          omega
        refine ⟨?_, ?_, ?_, hRealb, ?_, hDCb, ?_⟩
        · intro p hp
          have hp0 : ¬ LGood cfg res st0 p := by
            intro hg
            exact hp (lgood_of_eq cfg res st0 (bumpLayer st0 layer)
              (bumpLayer_layerPos st0 layer) (bumpLayer_deps st0 layer) p hg)
          refine ⟨hp0, ?_⟩
          intro he
          subst he
          exact hp0 hgoodpkg
        · intro p v hv
          refine ⟨v, ?_, le_refl v⟩
          rw [bumpLayer_layerPos]
          exact hv
        · exact ⟨val, hl, hle⟩
        · intro p l2 hl2
          rw [bumpLayer_deps]
          exact hl2
        · intro p _
          rw [bumpLayer_layerPos]
      · have hexp : ∀ v2, lookupA (bumpLayer st0 layer).layerPos pkg.importPath = some v2 →
            v2 < layer := by
          intro v2 hv2
          rw [hl] at hv2
          injection hv2 with hv3
          omega
        rw [analyze_expand_deeper cfg res fuel pkg layer st0 val hl (Nat.not_le.mp hle)] at h
        have hres := expandStep_M2 cfg res r root hRW hrank _ pkg layer
          (bumpLayer st0 layer) st' d
          (fun q s s2 dd hfq hb hrch hlg hrl hdc =>
            ih q (layer + 1) s s2 dd hfq hb hrch hlg hrl hdc)
          h hbacked hreach hLGb hRealb hDCb hexp
        obtain ⟨c1, c2, c3, c4, c5, c6, c7⟩ := hres
        refine ⟨?_, ?_, c3, c4, ?_, c6, ?_⟩
        · intro p hp
          have hc := c1 p hp
          refine ⟨?_, hc.2⟩
          intro hg
          exact hc.1 (lgood_of_eq cfg res st0 (bumpLayer st0 layer)
            (bumpLayer_layerPos st0 layer) (bumpLayer_deps st0 layer) p hg)
        · intro p v hv
          exact c2 p v (by rw [bumpLayer_layerPos]; exact hv)
        · intro p l2 hl2
          exact c5 p l2 (by rw [bumpLayer_deps]; exact hl2)
        · intro p hrp
          rw [c7 p hrp, bumpLayer_layerPos]
    | none =>
      have hexp : ∀ v2, lookupA (bumpLayer st0 layer).layerPos pkg.importPath = some v2 →
          v2 < layer := by
        intro v2 hv2
        rw [hl] at hv2
        exact Option.noConfusion hv2
      rw [analyze_expand_new cfg res fuel pkg layer st0 hl] at h
      have hres := expandStep_M2 cfg res r root hRW hrank _ pkg layer
        (bumpLayer st0 layer) st' d
        (fun q s s2 dd hfq hb hrch hlg hrl hdc =>
          ih q (layer + 1) s s2 dd hfq hb hrch hlg hrl hdc)
        h hbacked hreach hLGb hRealb hDCb hexp
      obtain ⟨c1, c2, c3, c4, c5, c6, c7⟩ := hres
      refine ⟨?_, ?_, c3, c4, ?_, c6, ?_⟩
      · intro p hp
        have hc := c1 p hp
        refine ⟨?_, hc.2⟩
        intro hg
        exact hc.1 (lgood_of_eq cfg res st0 (bumpLayer st0 layer)
          (bumpLayer_layerPos st0 layer) (bumpLayer_deps st0 layer) p hg)
      · intro p v hv
        exact c2 p v (by rw [bumpLayer_layerPos]; exact hv)
      · intro p l2 hl2
        exact c5 p l2 (by rw [bumpLayer_deps]; exact hl2)
      · intro p hrp
        rw [c7 p hrp, bumpLayer_layerPos]

theorem lgood_init (cfg : Config) (res : String → Option GoPackage) (p : String) :
    LGood cfg res initSt p := by
  intro Lp hLp
  simp [initSt, lookupA] at hLp

theorem realized_init (cfg : Config) (res : String → Option GoPackage) (root : String) :
    Realized cfg res root initSt := by
  intro p L hL
  simp [initSt, lookupA] at hL

theorem reach_rank (cfg : Config) (res : String → Option GoPackage) (r : String → Nat)
    (root : String) (hrank : RankDec cfg res r) :
    ∀ n p, Reach cfg res root n p → r p + n ≤ r root := by
  intro n p h
  induction h with
  | refl => omega
  | step n2 p2 q hre hedge ih =>
    obtain ⟨gp, l, h1, h2, hq⟩ := hedge
    obtain ⟨qpkg, hqm, hqe⟩ := List.mem_map.mp hq
    have hlt := hrank p2 gp l qpkg h1 h2 hqm
    rw [hqe] at hlt
    omega

/-! ### C1 (amended): the recorded layer is the maximum path length -/

/-- C1 (amended): for every package P reachable from the root in an acyclic
universe, the recorded layer of P is realized by a root-to-P path and bounds
every root-to-P path length from above — it is the maximum, over all
root-to-P paths in the owned subgraph, of the path's edge count, with the
root at layer 0. -/
theorem c1_layer_max (cfg : Config) (res : String → Option GoPackage) (r : String → Nat)
    (fuel : Nat) (rpkg : GoPackage) (st : ASt) (d : Nat)
    (hRW : RWres res) (hrank : RankDec cfg res r)
    (hroot : res cfg.rootPackage = some rpkg)
    (hrun : analyze cfg res fuel rpkg 0 initSt = ARes.ok st d) :
    lookupA st.layerPos cfg.rootPackage = some 0 ∧
    ∀ P n, Reach cfg res cfg.rootPackage n P →
      ∃ L, lookupA st.layerPos P = some L ∧ n ≤ L ∧
        Reach cfg res cfg.rootPackage L P := by
  have hpath : rpkg.importPath = cfg.rootPackage := hRW cfg.rootPackage rpkg hroot
  have hbacked : res rpkg.importPath = some rpkg := by
    rw [hpath]
    exact hroot
  have hreach0 : Reach cfg res cfg.rootPackage 0 rpkg.importPath := by
    rw [hpath]
    exact Reach.refl
  have hM2 := analyze_M2 cfg res r cfg.rootPackage hRW hrank fuel rpkg 0 initSt st d hrun
    hbacked hreach0 (fun p hp => absurd (lgood_init cfg res p) hp)
    (realized_init cfg res cfg.rootPackage) (depsCanon_init cfg res)
  obtain ⟨c1, c2, c3, c4, c5, c6, c7⟩ := hM2
  have hall : ∀ p, LGood cfg res st p := by
    intro p
    by_contra hp
    exact (c1 p hp).1 (lgood_init cfg res p)
  obtain ⟨v0, hv0, _⟩ := c3
  have hv0root : lookupA st.layerPos cfg.rootPackage = some v0 := by
    rw [← hpath]
    exact hv0
  have hreachv0 : Reach cfg res cfg.rootPackage v0 cfg.rootPackage :=
    c4 cfg.rootPackage v0 hv0root
  have hv00 : v0 = 0 := by
    have := reach_rank cfg res r cfg.rootPackage hrank v0 cfg.rootPackage hreachv0
    omega
  rw [hv00] at hv0root
  refine ⟨hv0root, ?_⟩
  intro P n hre
  induction hre with
  | refl => exact ⟨0, hv0root, le_refl 0, Reach.refl⟩
  | step n2 p2 q hre2 hedge ih =>
    obtain ⟨Lp, hLp, hnp, _⟩ := ih
    obtain ⟨gp, l, h1, h2, h3, h4⟩ := hall p2 Lp hLp
    obtain ⟨gp2, l2, h1b, h2b, hqmem⟩ := hedge
    have hgpe : gp = gp2 := by
      rw [h1] at h1b
      exact Option.some.inj h1b
    have hle : l = l2 := by
      rw [← hgpe] at h2b
      rw [h2] at h2b
      exact Except.ok.inj h2b
    obtain ⟨qpkg, hqm, hqe⟩ := List.mem_map.mp hqmem
    rw [← hle] at hqm
    obtain ⟨Lq, hLq, hLqb⟩ := h4 qpkg hqm
    rw [hqe] at hLq
    exact ⟨Lq, hLq, by omega, c4 q Lq hLq⟩

/-- Witness for C1 (amended) on the shortcut universe: the 2-edge path
r → a → c is realized and the recorded layer of c, namely 2, bounds every
root-to-c path. -/
theorem c1_layer_max_witness :
    ∃ L, lookupA (finalStOf shortcutRun).layerPos ("c") = some L ∧ 2 ≤ L ∧
      Reach shortcutCfg (mkRes shortcutUL) ("r") L ("c") := by
  have hedge_ra : OwnedEdge shortcutCfg (mkRes shortcutUL) ("r") ("a") :=
    ⟨shortcutRoot, [⟨"a", ["c"], false⟩, ⟨"c", [], false⟩], rfl, rfl, by simp⟩
  have hedge_ac : OwnedEdge shortcutCfg (mkRes shortcutUL) ("a") ("c") :=
    ⟨⟨"a", ["c"], false⟩, [⟨"c", [], false⟩], rfl, rfl, by simp⟩
  have hreach2 : Reach shortcutCfg (mkRes shortcutUL) ("r") 2 ("c") :=
    Reach.step 1 ("a") ("c") (Reach.step 0 ("r") ("a") Reach.refl hedge_ra) hedge_ac
  exact (c1_layer_max shortcutCfg (mkRes shortcutUL)
      (fun p => if p = "r" then 2 else if p = "a" then 1 else 0) 10 shortcutRoot
      (finalStOf shortcutRun) 2
      (RWres_of_list shortcutUL (by decide))
      (RankDec_of_list shortcutCfg shortcutUL
        (fun p => if p = "r" then 2 else if p = "a" then 1 else 0) (by decide))
      (by decide) (by decide)).2 ("c") 2 hreach2

/-! ### Lexicographic sort lemmas -/

theorem charListLe_total : ∀ a b : List Char, charListLe a b = true ∨ charListLe b a = true := by
  intro a
  induction a with
  | nil =>
    intro b
    left
    rfl
  | cons c cs ih =>
    intro b
    cases b with
    | nil =>
      right
      rfl
    | cons d ds =>
      by_cases h1 : c.toNat < d.toNat
      · left
        simp [charListLe, h1]
      · by_cases h2 : c.toNat = d.toNat
        · rcases ih ds with h | h
          · left
            simp [charListLe, h1, h2, h]
          · right
            have hnd : ¬ d.toNat < c.toNat := by omega
            simp [charListLe, hnd, h2.symm, h]
        · right
          have hd : d.toNat < c.toNat := by omega
          simp [charListLe, hd]

theorem charListLe_trans : ∀ a b c : List Char, charListLe a b = true →
    charListLe b c = true → charListLe a c = true := by
  intro a
  induction a with
  | nil =>
    intro b c _ _
    rfl
  | cons x xs ih =>
    intro b c hab hbc
    cases b with
    | nil => simp [charListLe] at hab
    | cons y ys =>
      cases c with
      | nil => simp [charListLe] at hbc
      | cons z zs =>
        simp only [charListLe] at hab hbc ⊢
        by_cases h1 : x.toNat < y.toNat
        · by_cases h2 : y.toNat < z.toNat
          · simp [show x.toNat < z.toNat by omega]
          · by_cases h3 : y.toNat = z.toNat
            · simp [show x.toNat < z.toNat by omega]
            · simp [h2, h3] at hbc
        · by_cases h4 : x.toNat = y.toNat
          · by_cases h2 : y.toNat < z.toNat
            · simp [show x.toNat < z.toNat by omega]
            · by_cases h3 : y.toNat = z.toNat
              · have hxz : ¬ x.toNat < z.toNat := by omega
                have hxze : x.toNat = z.toNat := by omega
                simp [h1, h4] at hab
                simp [h2, h3] at hbc
                simp [hxz, hxze]
                exact ih ys zs hab hbc
              · simp [h2, h3] at hbc
          · simp [h1, h4] at hab

theorem strLe_total (a b : String) : strLe a b = true ∨ strLe b a = true :=
  charListLe_total a.data b.data

theorem strLe_trans (a b c : String) (h1 : strLe a b = true) (h2 : strLe b c = true) :
    strLe a c = true :=
  charListLe_trans a.data b.data c.data h1 h2

theorem mem_insertStr (s : String) : ∀ (l : List String) (x : String),
    x ∈ insertStr s l ↔ x = s ∨ x ∈ l := by
  intro l
  induction l with
  | nil =>
    intro x
    simp [insertStr]
  | cons t ts ih =>
    intro x
    by_cases h : strLe s t = true
    · simp [insertStr, h]
    · simp only [insertStr, if_neg h, List.mem_cons, ih x]
      tauto

theorem sorted_insertStr (s : String) : ∀ l : List String,
    l.Pairwise (fun a b => strLe a b = true) →
    (insertStr s l).Pairwise (fun a b => strLe a b = true) := by
  intro l
  induction l with
  | nil =>
    intro _
    simp [insertStr]
  | cons t ts ih =>
    intro h
    rw [List.pairwise_cons] at h
    by_cases hc : strLe s t = true
    · simp only [insertStr, if_pos hc]
      rw [List.pairwise_cons]
      refine ⟨?_, List.pairwise_cons.mpr h⟩
      intro x hx
      rcases List.mem_cons.mp hx with hx | hx
      · rw [hx]
        exact hc
      · exact strLe_trans s t x hc (h.1 x hx)
    · simp only [insertStr, if_neg hc]
      rw [List.pairwise_cons]
      refine ⟨?_, ih h.2⟩
      intro x hx
      rcases (mem_insertStr s ts x).mp hx with hx | hx
      · rw [hx]
        rcases strLe_total s t with hst | hts
        · exact absurd hst hc
        · exact hts
      · exact h.1 x hx

theorem sortStrings_pairwise (l : List String) :
    (sortStrings l).Pairwise (fun a b => strLe a b = true) := by
  induction l with
  | nil => simp [sortStrings]
  | cons x xs ih => exact sorted_insertStr x (sortStrings xs) ih

theorem mem_sortStrings (l : List String) (x : String) : x ∈ sortStrings l ↔ x ∈ l := by
  induction l with
  | nil => simp [sortStrings]
  | cons y ys ih =>
    show x ∈ insertStr y (sortStrings ys) ↔ _
    rw [mem_insertStr y (sortStrings ys) x, ih]
    simp

theorem pairwise_filterMap_lt {β : Type} (step : Nat → Option (Nat × β))
    (hstep : ∀ i pr, step i = some pr → pr.1 = i) :
    ∀ l : List Nat, l.Pairwise (fun a b => b < a) →
      (l.filterMap step).Pairwise (fun x y => y.1 < x.1) := by
  intro l
  induction l with
  | nil =>
    intro _
    simp
  | cons a as ih =>
    intro h
    rw [List.pairwise_cons] at h
    cases hs : step a with
    | none =>
      simp only [List.filterMap_cons, hs]
      exact ih h.2
    | some pr =>
      simp only [List.filterMap_cons, hs]
      rw [List.pairwise_cons]
      refine ⟨?_, ih h.2⟩
      intro y hy
      obtain ⟨i, hi, hstepi⟩ := List.mem_filterMap.mp hy
      rw [hstep a pr hs, hstep i y hstepi]
      exact h.1 i hi

theorem range_reverse_pairwise (n : Nat) :
    (List.range n).reverse.Pairwise (fun a b => b < a) := by
  rw [List.pairwise_reverse]
  exact List.pairwise_lt_range n

theorem bucketStep_props (bs : List (List String)) (size : Nat)
    (t : List String → List String) (ht : ∀ l x, x ∈ t l ↔ x ∈ l)
    (entries : List (String × Nat)) (hnd : (entries.map Prod.fst).Nodup)
    (hmem : ∀ i name, name ∈ bs.getD i [] ↔ (name, i) ∈ entries)
    (hbound : ∀ kv ∈ entries, kv.2 < size)
    (cb : List (Nat × List String))
    (hcb : cb = (List.range size).reverse.filterMap (fun i =>
      match bs.getD i [] with
      | [] => none
      | pkgs => some (i, t pkgs))) :
    cb.Pairwise (fun x y => y.1 < x.1) ∧ (∀ pr ∈ cb, pr.2 ≠ []) ∧
    (∀ p n, lookupA entries p = some n → ∃ pr ∈ cb, pr.1 = n ∧ p ∈ pr.2) ∧
    (∀ pr ∈ cb, ∀ p ∈ pr.2, lookupA entries p = some pr.1) ∧
    (∀ pr ∈ cb, ∃ pkgs, bs.getD pr.1 [] = pkgs ∧ pr.2 = t pkgs) := by
  have hstep : ∀ i pr, (fun i =>
      match bs.getD i [] with
      | [] => none
      | pkgs => some (i, t pkgs)) i = some pr → pr.1 = i := by
    intro i pr hpr
    simp only [] at hpr
    cases hb : bs.getD i [] with
    | nil =>
      rw [hb] at hpr
      exact Option.noConfusion hpr
    | cons x xs =>
      rw [hb] at hpr
      have h2 : (i, t (x :: xs)) = pr := Option.some.inj hpr
      rw [← h2]
  have hshape : ∀ pr ∈ cb, ∃ x xs, bs.getD pr.1 [] = x :: xs ∧ pr.2 = t (x :: xs) := by
    intro pr hpr
    rw [hcb] at hpr
    obtain ⟨i, hi, hstepi⟩ := List.mem_filterMap.mp hpr
    cases hb : bs.getD i [] with
    | nil =>
      rw [hb] at hstepi
      exact Option.noConfusion hstepi
    | cons x xs =>
      rw [hb] at hstepi
      have h2 : (i, t (x :: xs)) = pr := Option.some.inj hstepi
      refine ⟨x, xs, ?_, ?_⟩
      · rw [← h2]
        exact hb
      · rw [← h2]
  refine ⟨?_, ?_, ?_, ?_, ?_⟩
  · rw [hcb]
    exact pairwise_filterMap_lt _ hstep (List.range size).reverse
      (range_reverse_pairwise size)
  · intro pr hpr
    obtain ⟨x, xs, hb, hpr2⟩ := hshape pr hpr
    have hx : x ∈ pr.2 := by
      rw [hpr2, ht (x :: xs) x]
      simp
    exact List.ne_nil_of_mem hx
  · intro p n hlook
    have hpn : (p, n) ∈ entries := mem_of_lookupA entries p n hlook
    have hn : n < size := hbound (p, n) hpn
    have hp : p ∈ bs.getD n [] := (hmem n p).mpr hpn
    cases hb : bs.getD n [] with
    | nil =>
      rw [hb] at hp
      simp at hp
    | cons x xs =>
      refine ⟨(n, t (x :: xs)), ?_, rfl, ?_⟩
      · rw [hcb]
        refine List.mem_filterMap.mpr ⟨n, ?_, by rw [hb]⟩
        exact List.mem_reverse.mpr (List.mem_range.mpr hn)
      · show p ∈ t (x :: xs)
        rw [ht (x :: xs) p, ← hb]
        exact hp
  · intro pr hpr p hp
    obtain ⟨x, xs, hb, hpr2⟩ := hshape pr hpr
    have hpb : p ∈ bs.getD pr.1 [] := by
      rw [hb, ← ht (x :: xs) p, ← hpr2]
      exact hp
    have hpe : (p, pr.1) ∈ entries := (hmem pr.1 p).mp hpb
    exact lookupA_of_mem_nodup entries p pr.1 hnd hpe
  · intro pr hpr
    obtain ⟨x, xs, hb, hpr2⟩ := hshape pr hpr
    exact ⟨x :: xs, hb, hpr2⟩

/-! ### C8: the count and depth groupings -/

/-- C8: in the count and depth displays after a completed traversal, every
key of the respective index lands in exactly one printed bucket (membership
in a bucket is equivalent to the index mapping the package to that bucket's
key), the printed buckets carry strictly descending keys, none is empty,
and in depth mode each bucket's members are sorted lexicographically by the
raw import path before annotation. -/
theorem c8_count_depth_groups (cfg : Config) (res : String → Option GoPackage)
    (fuel : Nat) (rpkg : GoPackage) (st : ASt) (d : Nat)
    (h : analyze cfg res fuel rpkg 0 initSt = ARes.ok st d)
    (hroot : rpkg.importPath = cfg.rootPackage) :
    ∃ cb db, countBuckets st = some cb ∧ depthBuckets st cfg.rootPackage = some db ∧
      cb.Pairwise (fun x y => y.1 < x.1) ∧ (∀ pr ∈ cb, pr.2 ≠ []) ∧
      (∀ p n, lookupA st.numDeps p = some n → ∃ pr ∈ cb, pr.1 = n ∧ p ∈ pr.2) ∧
      (∀ pr ∈ cb, ∀ p ∈ pr.2, lookupA st.numDeps p = some pr.1) ∧
      db.Pairwise (fun x y => y.1 < x.1) ∧ (∀ pr ∈ db, pr.2 ≠ []) ∧
      (∀ p n, lookupA st.depth p = some n → ∃ pr ∈ db, pr.1 = n ∧ p ∈ pr.2) ∧
      (∀ pr ∈ db, ∀ p ∈ pr.2, lookupA st.depth p = some pr.1) ∧
      (∀ pr ∈ db, pr.2.Pairwise (fun a b => strLe a b = true)) := by
  have hB := (analyze_basic cfg res fuel rpkg 0 initSt st d h basicInv_init).1
  obtain ⟨hnd1, hnd2, hnd3, hnd4, hlayb, hnumb, hcoh⟩ := hB
  have hrd : lookupA st.depth cfg.rootPackage = some d := by
    rw [← hroot]
    exact analyze_root_depth cfg res fuel rpkg 0 initSt st d h rfl
  have hgetd : getD st.depth cfg.rootPackage 0 = d := by
    rw [getD, hrd]
    rfl
  have hnumbound : ∀ kv ∈ st.numDeps, kv.2 < st.maxDeps + 1 := by
    intro kv hkv
    have := hnumb kv.1 kv.2 (lookupA_of_mem_nodup st.numDeps kv.1 kv.2 hnd2 (by simpa))
    omega
  have hdepbound : ∀ kv ∈ st.depth, kv.2 < getD st.depth cfg.rootPackage 0 + 1 := by
    intro kv hkv
    have hl := lookupA_of_mem_nodup st.depth kv.1 kv.2 hnd4 (by simpa)
    rcases analyze_depth_bound cfg res fuel rpkg 0 initSt st d h kv.1 kv.2 hl with hold | hle
    · simp [initSt, lookupA] at hold
    · rw [hgetd]
      omega
  obtain ⟨bsc, hbkc, _, hmemc⟩ := bucketize_some (st.maxDeps + 1) st.numDeps hnumbound
  obtain ⟨bsd, hbkd, _, hmemd⟩ :=
    bucketize_some (getD st.depth cfg.rootPackage 0 + 1) st.depth hdepbound
  have hpropsc := bucketStep_props bsc (st.maxDeps + 1) (fun l => l) (fun l x => Iff.rfl)
    st.numDeps hnd2 hmemc hnumbound
    ((List.range (st.maxDeps + 1)).reverse.filterMap (fun i =>
      match bsc.getD i [] with
      | [] => none
      | pkgs => some (i, pkgs))) rfl
  have hpropsd := bucketStep_props bsd (getD st.depth cfg.rootPackage 0 + 1) sortStrings
    (fun l x => mem_sortStrings l x) st.depth hnd4 hmemd hdepbound
    ((List.range (getD st.depth cfg.rootPackage 0 + 1)).reverse.filterMap (fun i =>
      match bsd.getD i [] with
      | [] => none
      | pkgs => some (i, sortStrings pkgs))) rfl
  refine ⟨_, _, by simp [countBuckets, hbkc], by simp [depthBuckets, hbkd],
    hpropsc.1, hpropsc.2.1, hpropsc.2.2.1, hpropsc.2.2.2.1,
    hpropsd.1, hpropsd.2.1, hpropsd.2.2.1, hpropsd.2.2.2.1, ?_⟩
  intro pr hpr
  obtain ⟨pkgs, _, hpr2⟩ := hpropsd.2.2.2.2 pr hpr
  rw [hpr2]
  exact sortStrings_pairwise pkgs

/-- Witness for C8 on the completed chain traversal. -/
theorem c8_count_depth_groups_witness :
    ∃ cb db, countBuckets chainFinalSt = some cb ∧
      depthBuckets chainFinalSt (chainCfg.rootPackage) = some db ∧
      cb.Pairwise (fun x y => y.1 < x.1) ∧ (∀ pr ∈ cb, pr.2 ≠ []) ∧
      (∀ p n, lookupA chainFinalSt.numDeps p = some n → ∃ pr ∈ cb, pr.1 = n ∧ p ∈ pr.2) ∧
      (∀ pr ∈ cb, ∀ p ∈ pr.2, lookupA chainFinalSt.numDeps p = some pr.1) ∧
      db.Pairwise (fun x y => y.1 < x.1) ∧ (∀ pr ∈ db, pr.2 ≠ []) ∧
      (∀ p n, lookupA chainFinalSt.depth p = some n → ∃ pr ∈ db, pr.1 = n ∧ p ∈ pr.2) ∧
      (∀ pr ∈ db, ∀ p ∈ pr.2, lookupA chainFinalSt.depth p = some pr.1) ∧
      (∀ pr ∈ db, pr.2.Pairwise (fun a b => strLe a b = true)) :=
  c8_count_depth_groups chainCfg (mkRes chainUL) 10 chainRoot chainFinalSt 2
    (by decide) rfl
